import Mathlib

/-!
Shallow embedding of the external merge-sort engine of `kafka-stream-sorter`
(`internal/sort/external_sort.go`), together with proofs of the specification
claims about it.

Records are modelled as lists of bytes (`List Nat`, each entry a byte value),
Go strings as their underlying byte lists, `int64` as `Int` with explicit
wrapping modulo `2 ^ 64`, and `uint64` as `Nat` with explicit `% 2 ^ 64`.
-/

/-- A record: a raw byte buffer (one CSV line without its trailing newline). -/
abbrev R := List Nat

/-- Byte-wise lexicographic strict order on byte strings; this is exactly the
order of the Go `<` operator on `string` values. -/
def lexLt : List Nat → List Nat → Bool
  | [], [] => false
  | [], _ :: _ => true
  | _ :: _, [] => false
  | a :: as, b :: bs => if a < b then true else if b < a then false else lexLt as bs

/-- Wrap an unbounded integer into the signed 64-bit range, the way Go `int64`
arithmetic overflows. -/
def wrap64 (x : Int) : Int := (x + 2 ^ 63) % 2 ^ 64 - 2 ^ 63

/-- Model of `extractID`'s digit-accumulation loop (lines 405-420 of
`external_sort.go`) after the first byte has been examined: stops at `','`
(byte 44) or at the first non-digit, otherwise accumulates
`n = n*10 + (c - '0')` in wrapping `int64` arithmetic. A `'-'` that is not at
offset 0 is a non-digit and stops the loop. -/
def extractIDDigits : List Nat → Int → Int
  | [], n => n
  | c :: rest, n =>
    if c = 44 then n
    else if 48 ≤ c ∧ c ≤ 57 then extractIDDigits rest (wrap64 (n * 10 + (c - 48 : Nat)))
    else n

/-- Model of `extractID` (`external_sort.go` lines 402-425): parse the leading
integer id (before the first comma) as a wrapping `int64`; an optional `'-'`
(byte 45) is accepted only at offset 0 and negates the accumulated value at the
end (`n = -n`, again wrapping). -/
def extractID (rec : List Nat) : Int :=
  match rec with
  | [] => 0
  | c :: rest =>
    if c = 44 then 0
    else if c = 45 then wrap64 (-(extractIDDigits rest 0))
    else if 48 ≤ c ∧ c ≤ 57 then extractIDDigits rest (wrap64 ((c - 48 : Nat) : Int))
    else 0

/-- Model of `bytes.IndexByte`: index of the first occurrence of `b`, `none`
standing for Go's `-1`. -/
def indexByte : List Nat → Nat → Option Nat
  | [], _ => none
  | c :: rest, b => if c = b then some 0 else (indexByte rest b).map (· + 1)

/-- Model of `bytes.LastIndexByte`: index of the last occurrence of `b`,
`none` standing for Go's `-1`. -/
def lastIndexByte : List Nat → Nat → Option Nat
  | [], _ => none
  | c :: rest, b =>
    match lastIndexByte rest b with
    | some i => some (i + 1)
    | none => if c = b then some 0 else none

/-- Model of `extractKeyString` (`external_sort.go` lines 368-398): extract the
comma-separated field at `idx` (0 = id, 1 = name, 3 = continent) as a byte
string, mirroring the source's `IndexByte` / `LastIndexByte` slicing. -/
def extractKeyString (rec : List Nat) (idx : Nat) : List Nat :=
  if idx = 0 then
    match indexByte rec 44 with
    | none => rec
    | some i => rec.take i
  else if idx = 1 then
    match indexByte rec 44 with
    | none => rec
    | some first =>
      let rest := rec.drop (first + 1)
      match indexByte rest 44 with
      | none => rest
      | some second => rest.take second
  else if idx = 3 then
    match lastIndexByte rec 44 with
    | none => rec
    | some last => rec.drop (last + 1)
  else rec

/-- Conversion of a `uint64` value (a `Nat` below `2 ^ 64`) to Go `int64`, as
performed by Go's `int(...)` conversion on a 64-bit platform. -/
def uint64ToInt64 (x : Nat) : Int := if x < 2 ^ 63 then (x : Int) else (x : Int) - 2 ^ 64

/-- Model of `calculateAdaptiveChunkSize` (`external_sort.go` lines 33-59).
`sys` and `alloc` are the `m.Sys` and `m.Alloc` runtime counters (`uint64`);
`m.Sys - m.Alloc` wraps modulo `2 ^ 64`, as does the `* 6`; the result is then
divided by 10, by the estimated record size 73, converted to `int`, and clamped
to the bounds 500000 and 2000000. -/
def calculateAdaptiveChunkSize (sys alloc : Nat) : Int :=
  let availableBytes := (sys + 2 ^ 64 - alloc % 2 ^ 64) % 2 ^ 64 * 6 % 2 ^ 64 / 10
  let estimatedRecordSize := 73
  let chunkSize := uint64ToInt64 (availableBytes / estimatedRecordSize)
  if chunkSize < 500000 then 500000
  else if chunkSize > 2000000 then 2000000
  else chunkSize

/-- Keyed record as stored during the chunking phase (`recordWithKey`,
`external_sort.go` lines 24-28). -/
structure recordWithKey where
  data : R
  keyStr : List Nat
  keyInt : Int
deriving DecidableEq

/-- Construction of a `recordWithKey` at ingest time (`external_sort.go`
lines 122-128): for `sortKeyIndex = 0` the numeric key is precomputed,
otherwise the string key (the other key field keeps its zero value). -/
def mkRecordWithKey (sortKeyIndex : Nat) (rec : R) : recordWithKey :=
  if sortKeyIndex = 0 then ⟨rec, [], extractID rec⟩
  else ⟨rec, extractKeyString rec sortKeyIndex, 0⟩

/-- The in-memory sort comparator of the chunking phase (`external_sort.go`
lines 138-148): numeric on the precomputed `keyInt` for the id sort,
byte-lexicographic on the precomputed `keyStr` otherwise. -/
def recLess (sortKeyIndex : Nat) (a b : recordWithKey) : Bool :=
  if sortKeyIndex = 0 then decide (a.keyInt < b.keyInt) else lexLt a.keyStr b.keyStr

/-- The non-strict order established by `sort.Slice`: `a` may precede `b` in
the sorted slice exactly when `¬ less b a`. -/
def recLe (sortKeyIndex : Nat) (a b : recordWithKey) : Prop :=
  recLess sortKeyIndex b a = false

instance (s : Nat) : DecidableRel (recLe s) :=
  fun a b => instDecidableEqBool (recLess s b a) false

/-- Model of the `sort.Slice` call of the chunking phase: a sort of the chunk
under the comparator. `sort.Slice` guarantees the slice ends up ordered by
`less` (it need not be stable); the standard library's algorithm is modelled
by insertion sort, which realizes the same contract. -/
def sortRecords (sortKeyIndex : Nat) (records : List recordWithKey) : List recordWithKey :=
  records.insertionSort (recLe sortKeyIndex)

/-- Model of `writeChunk` (`external_sort.go` lines 205-223): the byte content
written to the spill file, i.e. every record's bytes followed by a single
newline byte, exactly as received. -/
def writeChunk (records : List recordWithKey) : List Nat :=
  match records with
  | [] => []
  | r :: rest => r.data ++ 10 :: writeChunk rest

/-- Model of `fileScanner` (file handle plus buffered reader): the bytes not
yet consumed, plus whether the underlying file will fail with a non-EOF read
error after those bytes (a healthy file has `tailErr = false`). -/
structure Scanner where
  content : List Nat
  tailErr : Bool
deriving DecidableEq

/-- Model of `bufio.Reader.ReadBytes` with delimiter `'\n'` on the remaining
content: the bytes before the first newline, and the bytes after it (`none`
when no newline was found, i.e. the read ran to the end of the stream). -/
def readLine : List Nat → List Nat × Option (List Nat)
  | [] => ([], none)
  | c :: rest =>
    if c = 10 then ([], some rest)
    else
      let (line, r) := readLine rest
      (c :: line, r)

/-- Model of `fileScanner.next` (`external_sort.go` lines 243-253): the next
newline-terminated record with the trailing newline stripped; the final record
of a file is accepted without a trailing newline; end of file yields
`Except.ok none`; a non-EOF read error (modelled by `tailErr`) is propagated
as `Except.error`, discarding any partial line, as `ReadBytes` does. -/
def scannerNext (sc : Scanner) : Except Unit (Option (List Nat × Scanner)) :=
  match readLine sc.content with
  | (line, some rest) => .ok (some (line, ⟨rest, sc.tailErr⟩))
  | (line, none) =>
    if sc.tailErr then .error ()
    else if line.isEmpty then .ok none
    else .ok (some (line, ⟨[], false⟩))

/-- Records obtained by reading a healthy byte stream to exhaustion
(auxiliary, fuelled by the length of the stream). -/
def scanAllAux : Nat → List Nat → List R
  | _, [] => []
  | 0, _ :: _ => []
  | fuel + 1, content =>
    match readLine content with
    | (line, some rest) => line :: scanAllAux fuel rest
    | (line, none) => [line]

/-- All records of a healthy (error-free) byte stream, in order. -/
def scanAll (content : List Nat) : List R := scanAllAux content.length content

/-- Model of `heapItem` (`external_sort.go` lines 259-265). -/
structure heapItem where
  keyStr : List Nat
  keyInt : Int
  useInt : Bool
  val : R
  i : Nat
deriving DecidableEq

/-- Model of `minHeap.Less` (`external_sort.go` lines 273-279). -/
def minHeapLess (a b : heapItem) : Bool :=
  if a.useInt || b.useInt then decide (a.keyInt < b.keyInt) else lexLt a.keyStr b.keyStr

/-- The heap item pushed for record `rec` of spill file `i` (`external_sort.go`
lines 317-321 and 354-358): numeric key with `useInt` for the id sort, string
key otherwise. -/
def mkHeapItem (sortKeyIndex : Nat) (rec : R) (i : Nat) : heapItem :=
  if sortKeyIndex = 0 then ⟨[], extractID rec, true, rec, i⟩
  else ⟨extractKeyString rec sortKeyIndex, 0, false, rec, i⟩

/-- Contract model of `container/heap`'s `heap.Pop` on a `minHeap`: removes and
returns an element that is minimal under `minHeap.Less` (`heap.Pop` is
documented to remove and return the minimum element according to `Less`; which
of several `Less`-equal minima comes out is left open by the spec, and no claim
below depends on that choice). Returns `none` on an empty heap. -/
def popMin : List heapItem → Option (heapItem × List heapItem)
  | [] => none
  | x :: xs =>
    match popMin xs with
    | none => some (x, [])
    | some (m, rest) => if minHeapLess m x then some (m, x :: rest) else some (x, xs)

/-- State of the k-way merge loop (`external_sort.go` lines 295-363): per-file
scanners, the heap, the pending publish batch, the batches already flushed to
the output writer (one entry per `WriteMessages` call, in order), and the
running `mergedCount`. -/
structure MergeState where
  scanners : List Scanner
  heap : List heapItem
  batch : List R
  published : List (List R)
  mergedCount : Nat
deriving DecidableEq

/-- One iteration of the merge loop (`external_sort.go` lines 341-360): pop the
minimum, append its record to the batch, flush the batch to the writer when it
reaches the 1000-message cap, then advance the popped item's scanner and push
that file's next record; any error from the scanner (EOF or a genuine read
error) merely suppresses the push, mirroring the source's `err == nil` test.
The scanner index of a popped item is always in range (see the invariants
below); the out-of-range branch only keeps the function total. Returns `none`
when the heap is empty and the loop exits. -/
def mergeStep (sortKeyIndex : Nat) (st : MergeState) : Option MergeState :=
  match popMin st.heap with
  | none => none
  | some (item, h) =>
    let batch1 := st.batch ++ [item.val]
    let cnt := st.mergedCount + 1
    let pub1 := if 1000 ≤ batch1.length then st.published ++ [batch1] else st.published
    let batch2 := if 1000 ≤ batch1.length then [] else batch1
    match st.scanners[item.i]? with
    | none => some ⟨st.scanners, h, batch2, pub1, cnt⟩
    | some sc =>
      match scannerNext sc with
      | .ok (some (rec, sc2)) =>
        some ⟨st.scanners.set item.i sc2, h ++ [mkHeapItem sortKeyIndex rec item.i],
          batch2, pub1, cnt⟩
      | _ => some ⟨st.scanners, h, batch2, pub1, cnt⟩

/-- Bound on the number of remaining merge iterations: every iteration removes
a heap item, and any item it pushes consumes at least one content byte. -/
def mergeMeasure (st : MergeState) : Nat :=
  st.heap.length + (st.scanners.map fun sc => sc.content.length).sum

/-- The merge loop, fuelled; the fuel is an upper bound on the number of
iterations, and `mergeLoop` supplies a sufficient one. -/
def mergeLoopFuel (sortKeyIndex : Nat) : Nat → MergeState → MergeState
  | 0, st => st
  | fuel + 1, st =>
    match mergeStep sortKeyIndex st with
    | none => st
    | some st2 => mergeLoopFuel sortKeyIndex fuel st2

/-- The main merge loop (`external_sort.go` lines 341-360), run to completion. -/
def mergeLoop (sortKeyIndex : Nat) (st : MergeState) : MergeState :=
  mergeLoopFuel sortKeyIndex (mergeMeasure st + 1) st

/-- Final flush after the merge loop (`external_sort.go` lines 329-338 and
362): an empty batch is not written. Returns all published batches and the
final `mergedCount`. -/
def mergeFinish (st : MergeState) : List (List R) × Nat :=
  (if st.batch.isEmpty then st.published else st.published ++ [st.batch], st.mergedCount)

/-- A spill file as the merge phase sees it: its path (temp directory plus
chunk index, standing for `chunk_<index>.tmp`), its byte content, and whether
reading it past its content fails with a non-EOF error (fault injection; files
on a healthy filesystem have `tailErr = false`). -/
structure SpillFile where
  dir : List Nat
  index : Nat
  content : List Nat
  tailErr : Bool
deriving DecidableEq

/-- Model of the heap-initialization loop (`external_sort.go` lines 315-323):
for each scanner in file order, read its first record and push an item for it;
a scanner whose first read does not succeed (empty file or read error)
contributes nothing. `base` is the index of the first scanner of the slice
within the whole scanner slice. Returns the initial heap (in push order) and
the advanced scanners. -/
def initLoop (sortKeyIndex : Nat) : List Scanner → Nat → List heapItem × List Scanner
  | [], _ => ([], [])
  | sc :: rest, base =>
    let p := initLoop sortKeyIndex rest (base + 1)
    match scannerNext sc with
    | .ok (some (rec, sc2)) => (mkHeapItem sortKeyIndex rec base :: p.1, sc2 :: p.2)
    | _ => (p.1, sc :: p.2)

/-- Model of `kWayMergeToKafka` (`external_sort.go` lines 295-363): open one
scanner per spill file, seed the heap with each file's first record, run the
merge loop, and flush the final batch. Returns the published batches (one
entry per `WriteMessages` call, in order) and `mergedCount`. -/
def kWayMergeToKafka (sortKeyIndex : Nat) (files : List SpillFile) : List (List R) × Nat :=
  let scanners0 := files.map fun f => Scanner.mk f.content f.tailErr
  let p := initLoop sortKeyIndex scanners0 0
  mergeFinish (mergeLoop sortKeyIndex ⟨p.2, p.1, [], [], 0⟩)

/-- One response of the input endpoint (`kafkaReader.ReadMessage`): a message
payload, a timeout-class error (deadline exceeded or a temporary error, which
the source treats as the drain signal for the current chunk), or a fatal
error. -/
inductive ReadResult
  | val (v : List Nat)
  | timeout
  | fatal
deriving DecidableEq

/-- Externally visible side effects of `ExternalSort`, in program order:
creating the temp directory, one `read` per `ReadMessage` call, one
`spillWrite` per chunk spilled, one `spillRead` per spill file opened for the
merge, and one `publish` per `WriteMessages` call. -/
inductive Effect
  | mkdir
  | read
  | spillWrite
  | spillRead
  | publish
deriving DecidableEq

/-- Errors surfaced by `ExternalSort`. -/
inductive SortErr
  | invalidKey
  | inputFatal
deriving DecidableEq

/-- Model of the inner ingest loop of one chunk (`external_sort.go` lines
97-131): read until the chunk budget is filled; a timeout-class error breaks
the chunk (drain signal), a fatal error aborts the phase; each payload is
copied and its sort key precomputed at ingest. Returns the keyed records in
arrival order, the unconsumed input, and whether a fatal error occurred. An
exhausted input trace behaves like a reader that keeps timing out. -/
def ingestChunk (sortKeyIndex : Nat) : Nat → List ReadResult →
    List recordWithKey × List ReadResult × Bool
  | 0, input => ([], input, false)
  | _ + 1, [] => ([], [], false)
  | _ + 1, .timeout :: rest => ([], rest, false)
  | _ + 1, .fatal :: rest => ([], rest, true)
  | budget + 1, .val v :: rest =>
    let p := ingestChunk sortKeyIndex budget rest
    (mkRecordWithKey sortKeyIndex v :: p.1, p.2.1, p.2.2)

/-- Model of the chunking-phase loop (`external_sort.go` lines 92-165),
fuelled by the length of the remaining input plus one (each new chunk consumes
at least one read). Returns the sorted chunks in spill order together with the
list of all payloads ingested (the source tracks their count,
`totalRecordsRead`; the model keeps the list itself), and the effect trace. -/
def chunkPhaseAux (sortKeyIndex chunkSize : Nat) :
    Nat → List ReadResult → Except SortErr (List (List recordWithKey) × List R) × List Effect
  | 0, _ => (.ok ([], []), [])
  | fuel + 1, input =>
    let p := ingestChunk sortKeyIndex chunkSize input
    let recs := p.1
    let rest := p.2.1
    let rdEff := List.replicate (input.length - rest.length) Effect.read
    if p.2.2 then (.error .inputFatal, rdEff)
    else if recs.isEmpty then (.ok ([], []), rdEff)
    else
      let sorted := sortRecords sortKeyIndex recs
      let raw := recs.map fun r => r.data
      if recs.length < chunkSize then (.ok ([sorted], raw), rdEff ++ [Effect.spillWrite])
      else
        match chunkPhaseAux sortKeyIndex chunkSize fuel rest with
        | (.error e, effs) => (.error e, rdEff ++ Effect.spillWrite :: effs)
        | (.ok (chunks, ing), effs) =>
          (.ok (sorted :: chunks, raw ++ ing), rdEff ++ Effect.spillWrite :: effs)

/-- The chunking phase (`external_sort.go` lines 92-165). -/
def chunkPhase (sortKeyIndex chunkSize : Nat) (input : List ReadResult) :
    Except SortErr (List (List recordWithKey) × List R) × List Effect :=
  chunkPhaseAux sortKeyIndex chunkSize (input.length + 1) input

/-- Model of `ExternalSort` (`external_sort.go` lines 69-201): validate the
selector, create the temp directory, compute the adaptive chunk size from the
sampled memory counters `sys` and `alloc`, run the chunking phase, return
early when no chunk was spilled, otherwise write the spill files and run the
k-way merge. The first component is the result (published batches,
`mergedCount`, and the ingested payloads); the second is the effect trace. -/
def ExternalSort (sys alloc sortKeyIndex : Nat) (tempDir : List Nat)
    (input : List ReadResult) :
    Except SortErr (List (List R) × Nat × List R) × List Effect :=
  if sortKeyIndex ≠ 0 ∧ sortKeyIndex ≠ 1 ∧ sortKeyIndex ≠ 3 then (.error .invalidKey, [])
  else
    let chunkSize := (calculateAdaptiveChunkSize sys alloc).toNat
    match chunkPhase sortKeyIndex chunkSize input with
    | (.error e, effs) => (.error e, Effect.mkdir :: effs)
    | (.ok (chunks, ingested), effs) =>
      if chunks.isEmpty then (.ok ([], 0, ingested), Effect.mkdir :: effs)
      else
        let files := chunks.mapIdx fun n c => SpillFile.mk tempDir n (writeChunk c) false
        let p := kWayMergeToKafka sortKeyIndex files
        (.ok (p.1, p.2, ingested),
          Effect.mkdir :: effs ++ List.replicate files.length Effect.spillRead
            ++ p.1.map fun _ => Effect.publish)

/-- The per-record comparator induced by the active selector on raw record
bytes: signed 64-bit integer order on the extracted id for the id sort,
unsigned byte-wise lexicographic order on the extracted string field for the
name and continent sorts. -/
def keyLeB (sortKeyIndex : Nat) (a b : R) : Bool :=
  if sortKeyIndex = 0 then decide (extractID a ≤ extractID b)
  else !lexLt (extractKeyString b sortKeyIndex) (extractKeyString a sortKeyIndex)

/-- Propositional form of `keyLeB`. -/
def keyLe (sortKeyIndex : Nat) (a b : R) : Prop := keyLeB sortKeyIndex a b = true

/-- A read result is clean when any payload it carries contains no newline
byte (the upstream convention of the spec's data model: no embedded newlines
in any field). -/
def cleanRead : ReadResult → Bool
  | .val v => !v.contains 10
  | _ => true

/-- The heap contains at most one item per origin file. -/
def distinctOrigins (h : List heapItem) : Prop :=
  h.Pairwise fun a b => a.i ≠ b.i

/-- All records handed to the output writer so far, in order, including the
not-yet-flushed batch. -/
def emitted (st : MergeState) : List R := st.published.flatten ++ st.batch

/-- Inductive invariant of the merge loop yielding sortedness of the emission
sequence: scanners are healthy, heap items carry the key of their payload and
a scanner index in range, every heap item's payload precedes (under the active
comparator) everything left in its file and that remainder is itself sorted,
the emission so far is sorted, and its last record precedes every heap item. -/
def MInv (s : Nat) (st : MergeState) : Prop :=
  (∀ sc ∈ st.scanners, sc.tailErr = false) ∧
  (∀ it ∈ st.heap, it = mkHeapItem s it.val it.i) ∧
  (∀ it ∈ st.heap, ∃ sc, st.scanners[it.i]? = some sc ∧
    List.Chain' (keyLe s) (it.val :: scanAll sc.content)) ∧
  List.Chain' (keyLe s) (emitted st) ∧
  (∀ it ∈ st.heap, ∀ e ∈ (emitted st).getLast?, keyLe s e it.val)

/-- Inductive invariant of the merge loop yielding multiset preservation:
scanners are healthy, heap origins are in range, and every file that still has
unread records keeps an item in the heap. -/
def MComplete (st : MergeState) : Prop :=
  (∀ sc ∈ st.scanners, sc.tailErr = false) ∧
  (∀ it ∈ st.heap, it.i < st.scanners.length) ∧
  (∀ i, i < st.scanners.length → (∃ it ∈ st.heap, it.i = i) ∨
    ∀ sc ∈ st.scanners[i]?, scanAll sc.content = [])

/-- The records a merge state still owes to the output: heap payloads plus
everything unread in the scanners. -/
def pendingRecords (st : MergeState) : List R :=
  st.heap.map (fun it => it.val) ++ (st.scanners.map fun sc => scanAll sc.content).flatten

/-- Everything a merge state accounts for: records already handed to the
writer plus the records it still owes. -/
def totalRecords (st : MergeState) : List R := emitted st ++ pendingRecords st

/-- Decimal value of a digit string continued from accumulator `n` (each entry
is the byte of one decimal digit). -/
def decimalValFrom (ds : List Nat) (n : Nat) : Nat :=
  ds.foldl (fun a d => a * 10 + (d - 48)) n

/-- Decimal value of a digit string. -/
def decimalVal (ds : List Nat) : Nat := decimalValFrom ds 0

/-! ### Basic facts about the byte-wise lexicographic order -/

theorem lexLt_nil_cons (c : Nat) (cs : List Nat) : lexLt [] (c :: cs) = true := rfl

theorem lexLt_irrefl : ∀ l : List Nat, lexLt l l = false
  | [] => rfl
  | _ :: as => by simp [lexLt, lexLt_irrefl as]

theorem lexLt_asymm : ∀ {a b : List Nat}, lexLt a b = true → lexLt b a = false
  | [], [], h => by simp [lexLt] at h
  | [], _ :: _, _ => rfl
  | _ :: _, [], h => by simp [lexLt] at h
  | x :: xs, y :: ys, h => by
    simp only [lexLt] at h ⊢
    rcases Nat.lt_trichotomy x y with hxy | hxy | hxy
    · simp [hxy, Nat.lt_asymm hxy]
    · subst hxy
      simp only [Nat.lt_irrefl, if_false] at h ⊢
      exact lexLt_asymm h
    · simp [hxy, Nat.lt_asymm hxy] at h

theorem lexLt_trans : ∀ {a b c : List Nat},
    lexLt a b = true → lexLt b c = true → lexLt a c = true
  | [], [], [], h1, _ => by simp [lexLt] at h1
  | [], _ :: _, [], _, h2 => by simp [lexLt] at h2
  | [], _, _ :: _, _, _ => rfl
  | _ :: _, [], _, h1, _ => by simp [lexLt] at h1
  | _ :: _, _ :: _, [], _, h2 => by simp [lexLt] at h2
  | x :: xs, y :: ys, z :: zs, h1, h2 => by
    simp only [lexLt] at h1 h2 ⊢
    rcases Nat.lt_trichotomy x y with hxy | hxy | hxy <;>
      rcases Nat.lt_trichotomy y z with hyz | hyz | hyz
    · simp [Nat.lt_trans hxy hyz, Nat.lt_asymm (Nat.lt_trans hxy hyz)]
    · subst hyz; simp [hxy, Nat.lt_asymm hxy]
    · simp [hyz, Nat.lt_asymm hyz] at h2
    · subst hxy; simp [hyz, Nat.lt_asymm hyz]
    · subst hxy; subst hyz
      simp only [Nat.lt_irrefl, if_false] at h1 h2 ⊢
      exact lexLt_trans h1 h2
    · subst hxy; simp [hyz, Nat.lt_asymm hyz] at h2
    · simp [hxy, Nat.lt_asymm hxy] at h1
    · simp [hxy, Nat.lt_asymm hxy] at h1
    · simp [hxy, Nat.lt_asymm hxy] at h1

theorem lexLt_connex : ∀ a b : List Nat, lexLt a b = false → lexLt b a = false → a = b
  | [], [], _, _ => rfl
  | [], _ :: _, h1, _ => by simp [lexLt] at h1
  | _ :: _, [], _, h2 => by simp [lexLt] at h2
  | x :: xs, y :: ys, h1, h2 => by
    simp only [lexLt] at h1 h2
    rcases Nat.lt_trichotomy x y with hxy | hxy | hxy
    · simp [hxy] at h1
    · subst hxy
      simp only [Nat.lt_irrefl, if_false] at h1 h2
      rw [lexLt_connex xs ys h1 h2]
    · simp [hxy, Nat.lt_asymm hxy] at h2

theorem lexLt_neg_trans {a b c : List Nat} (h1 : lexLt b a = false)
    (h2 : lexLt c b = false) : lexLt c a = false := by
  cases hca : lexLt c a with
  | false => rfl
  | true =>
    cases hbc : lexLt b c with
    | true => exact absurd (lexLt_trans hbc hca) (by simp [h1])
    | false =>
      have hcb := lexLt_connex c b h2 hbc
      subst hcb
      exact absurd hca (by simp [h1])

/-! ### Facts about 64-bit wrapping -/

theorem wrap64_eq_self {x : Int} (h1 : -(2 ^ 63) ≤ x) (h2 : x < 2 ^ 63) :
    wrap64 x = x := by
  unfold wrap64
  omega

theorem wrap64_min : wrap64 (2 ^ 63) = -(2 ^ 63) := by decide

/-- C8: for every possible value of the runtime memory counters `Sys` and
`Alloc` — including `Alloc > Sys`, where the unsigned subtraction `Sys - Alloc`
wraps modulo `2 ^ 64` — the adaptive chunk size lies between 500000 and
2000000 records. -/
theorem clampChunk_bounds (x : Int) :
    500000 ≤ (if x < 500000 then (500000 : Int) else if x > 2000000 then 2000000 else x) ∧
      (if x < 500000 then (500000 : Int) else if x > 2000000 then 2000000 else x) ≤
        2000000 := by
  split
  · omega
  · split <;> omega

theorem calculateAdaptiveChunkSize_bounds (sys alloc : Nat) :
    500000 ≤ calculateAdaptiveChunkSize sys alloc ∧
      calculateAdaptiveChunkSize sys alloc ≤ 2000000 :=
  clampChunk_bounds
    (uint64ToInt64 ((sys + 2 ^ 64 - alloc % 2 ^ 64) % 2 ^ 64 * 6 % 2 ^ 64 / 10 / 73))

/-- C7: for every selector outside `{0, 1, 3}` and any temp directory and
input, `ExternalSort` fails immediately with the invalid-argument error and
performs no side effect at all: the effect trace is empty, so the temp
directory is not created, no input read is attempted, and nothing is
published. -/
theorem ExternalSort_invalid_selector (sys alloc sortKeyIndex : Nat)
    (tempDir : List Nat) (input : List ReadResult)
    (hs : sortKeyIndex ≠ 0 ∧ sortKeyIndex ≠ 1 ∧ sortKeyIndex ≠ 3) :
    ExternalSort sys alloc sortKeyIndex tempDir input = (.error .invalidKey, []) := by
  unfold ExternalSort
  simp [hs]

theorem ExternalSort_invalid_selector_witness :
    (2 ≠ 0 ∧ 2 ≠ 1 ∧ 2 ≠ 3) ∧
      ExternalSort 1024 512 2 [116] [ReadResult.val [53, 44, 97]] =
        (.error .invalidKey, []) :=
  ⟨by decide, ExternalSort_invalid_selector 1024 512 2 [116] [ReadResult.val [53, 44, 97]]
    (by decide)⟩

/-! ### Field extraction: the name and continent keys (C6) -/

theorem indexByte_eq_none {l : List Nat} {b : Nat} (h : b ∉ l) :
    indexByte l b = none := by
  induction l with
  | nil => rfl
  | cons c rest ih =>
    simp only [List.mem_cons, not_or] at h
    simp [indexByte, Ne.symm h.1, ih h.2]

theorem indexByte_append {a : List Nat} {b : Nat} (rest : List Nat) (h : b ∉ a) :
    indexByte (a ++ b :: rest) b = some a.length := by
  induction a with
  | nil => simp [indexByte]
  | cons c tl ih =>
    simp only [List.mem_cons, not_or] at h
    simp [indexByte, Ne.symm h.1, ih h.2]

theorem lastIndexByte_eq_none {l : List Nat} {b : Nat} (h : b ∉ l) :
    lastIndexByte l b = none := by
  induction l with
  | nil => rfl
  | cons c rest ih =>
    simp only [List.mem_cons, not_or] at h
    simp [lastIndexByte, ih h.2, Ne.symm h.1]

theorem lastIndexByte_append (a : List Nat) {b : Nat} {rest : List Nat} (h : b ∉ rest) :
    lastIndexByte (a ++ b :: rest) b = some a.length := by
  induction a with
  | nil => simp [lastIndexByte, lastIndexByte_eq_none h]
  | cons c tl ih => simp [lastIndexByte, ih]

/-- C6: `extractKeyString` at index 1 returns the bytes strictly between the
first and the second comma, or everything after the single comma when exactly
one comma exists; at index 3 it returns the bytes after the last comma, or the
whole buffer when no comma exists. -/
theorem extractKeyString_name_continent :
    (∀ a b c : List Nat, 44 ∉ a → 44 ∉ b →
      extractKeyString (a ++ 44 :: (b ++ 44 :: c)) 1 = b) ∧
    (∀ a b : List Nat, 44 ∉ a → 44 ∉ b →
      extractKeyString (a ++ 44 :: b) 1 = b) ∧
    (∀ a b : List Nat, 44 ∉ b →
      extractKeyString (a ++ 44 :: b) 3 = b) ∧
    ∀ rec : List Nat, 44 ∉ rec →
      extractKeyString rec 3 = rec := by
  refine ⟨?_, ?_, ?_, ?_⟩
  · intro a b c ha hb
    have h1 : indexByte (a ++ 44 :: (b ++ 44 :: c)) 44 = some a.length :=
      indexByte_append _ ha
    have hdrop : (a ++ 44 :: (b ++ 44 :: c)).drop (a.length + 1) = b ++ 44 :: c := by
      rw [show a ++ 44 :: (b ++ 44 :: c) = (a ++ [44]) ++ (b ++ 44 :: c) by simp]
      rw [List.drop_left' (by simp)]
    have h2 : indexByte (b ++ 44 :: c) 44 = some b.length := indexByte_append _ hb
    simp [extractKeyString, h1, hdrop, h2, List.take_left']
  · intro a b ha hb
    have h1 : indexByte (a ++ 44 :: b) 44 = some a.length := indexByte_append _ ha
    have hdrop : (a ++ 44 :: b).drop (a.length + 1) = b := by
      rw [show a ++ 44 :: b = (a ++ [44]) ++ b by simp]
      rw [List.drop_left' (by simp)]
    simp [extractKeyString, h1, hdrop, indexByte_eq_none hb]
  · intro a b hb
    have h1 : lastIndexByte (a ++ 44 :: b) 44 = some a.length := lastIndexByte_append _ hb
    have hdrop : (a ++ 44 :: b).drop (a.length + 1) = b := by
      rw [show a ++ 44 :: b = (a ++ [44]) ++ b by simp]
      rw [List.drop_left' (by simp)]
    simp [extractKeyString, h1, hdrop]
  · intro rec h
    simp [extractKeyString, lastIndexByte_eq_none h]

theorem extractKeyString_name_continent_witness :
    extractKeyString ([49] ++ 44 :: ([98, 111, 98] ++ 44 :: [120, 44, 65])) 1 =
        [98, 111, 98] ∧
      extractKeyString ([49] ++ 44 :: [98, 111, 98]) 1 = [98, 111, 98] ∧
      extractKeyString ([49, 44, 97] ++ 44 :: [65, 115, 105, 97]) 3 = [65, 115, 105, 97] ∧
      extractKeyString [65, 115, 105, 97] 3 = [65, 115, 105, 97] :=
  ⟨extractKeyString_name_continent.1 [49] [98, 111, 98] [120, 44, 65]
      (by decide) (by decide),
    extractKeyString_name_continent.2.1 [49] [98, 111, 98] (by decide) (by decide),
    extractKeyString_name_continent.2.2.1 [49, 44, 97] [65, 115, 105, 97] (by decide),
    extractKeyString_name_continent.2.2.2 [65, 115, 105, 97] (by decide)⟩

/-! ### The numeric id key (C5) -/

theorem decimalValFrom_ge (ds : List Nat) (n : Nat) : n ≤ decimalValFrom ds n := by
  induction ds generalizing n with
  | nil => exact Nat.le_refl n
  | cons d rest ih =>
    calc n ≤ n * 10 + (d - 48) := by omega
    _ ≤ decimalValFrom rest (n * 10 + (d - 48)) := ih _

theorem decimalValFrom_pow (ds : List Nat) (n : Nat) :
    n * 10 ^ ds.length ≤ decimalValFrom ds n := by
  induction ds generalizing n with
  | nil => simp [decimalValFrom]
  | cons d rest ih =>
    have h1 : (n * 10 + (d - 48)) * 10 ^ rest.length ≤
        decimalValFrom rest (n * 10 + (d - 48)) := ih _
    have h2 : n * 10 ^ (d :: rest).length ≤ (n * 10 + (d - 48)) * 10 ^ rest.length := by
      have : n * 10 ^ (d :: rest).length = n * 10 * 10 ^ rest.length := by
        simp [List.length_cons, pow_succ]; ring
      rw [this]
      exact Nat.mul_le_mul_right _ (by omega)
    calc n * 10 ^ (d :: rest).length ≤ (n * 10 + (d - 48)) * 10 ^ rest.length := h2
    _ ≤ _ := h1

theorem decimalValFrom_cons (d : Nat) (ds : List Nat) (n : Nat) :
    decimalValFrom (d :: ds) n = decimalValFrom ds (n * 10 + (d - 48)) := rfl

theorem extractIDDigits_stop {tail : List Nat}
    (h : tail = [] ∨ ∃ r, tail = 44 :: r) (v : Int) : extractIDDigits tail v = v := by
  rcases h with h | ⟨r, h⟩ <;> subst h <;> simp [extractIDDigits]

theorem extractIDDigits_accum (ds : List Nat) (tail : List Nat) (n : Nat)
    (hdig : ∀ d ∈ ds, 48 ≤ d ∧ d ≤ 57)
    (hlt : decimalValFrom ds n < 2 ^ 63) :
    extractIDDigits (ds ++ tail) (n : Int) =
      extractIDDigits tail ((decimalValFrom ds n : Nat) : Int) := by
  induction ds generalizing n with
  | nil => simp [decimalValFrom]
  | cons d rest ih =>
    have hd := hdig d (List.mem_cons_self d rest)
    have hrest : ∀ x ∈ rest, 48 ≤ x ∧ x ≤ 57 := fun x hx =>
      hdig x (List.mem_cons_of_mem d hx)
    have hne44 : d ≠ 44 := by omega
    rw [decimalValFrom_cons] at hlt ⊢
    have hm : (n * 10 + (d - 48) : Nat) < 2 ^ 63 :=
      Nat.lt_of_le_of_lt (decimalValFrom_ge rest _) hlt
    have hwrap : wrap64 ((n : Int) * 10 + ((d - 48 : Nat) : Int)) =
        ((n * 10 + (d - 48) : Nat) : Int) := by
      rw [show ((n : Int) * 10 + ((d - 48 : Nat) : Int)) = ((n * 10 + (d - 48) : Nat) : Int)
        by push_cast; ring]
      exact wrap64_eq_self (le_trans (by norm_num) (Int.natCast_nonneg _))
        (by exact_mod_cast hm)
    simp only [List.cons_append, extractIDDigits, hne44, if_false, hd.1, hd.2,
      and_self, if_true]
    rw [hwrap]
    exact ih _ hrest hlt

theorem extractIDDigits_boundary (ds : List Nat) (tail : List Nat) (n : Nat)
    (hdig : ∀ d ∈ ds, 48 ≤ d ∧ d ≤ 57)
    (heq : decimalValFrom ds n = 2 ^ 63) (hn : n < 2 ^ 63) :
    extractIDDigits (ds ++ tail) (n : Int) = extractIDDigits tail (-(2 ^ 63)) := by
  induction ds generalizing n with
  | nil =>
    exfalso
    simp [decimalValFrom] at heq
    omega
  | cons d rest ih =>
    have hd := hdig d (List.mem_cons_self d rest)
    have hrest : ∀ x ∈ rest, 48 ≤ x ∧ x ≤ 57 := fun x hx =>
      hdig x (List.mem_cons_of_mem d hx)
    have hne44 : d ≠ 44 := by omega
    rw [decimalValFrom_cons] at heq
    simp only [List.cons_append, extractIDDigits, hne44, if_false, hd.1, hd.2,
      and_self, if_true]
    cases rest with
    | nil =>
      have hm : (n * 10 + (d - 48) : Nat) = 2 ^ 63 := by
        simpa [decimalValFrom] using heq
      have hwrap : wrap64 ((n : Int) * 10 + ((d - 48 : Nat) : Int)) = -(2 ^ 63) := by
        rw [show ((n : Int) * 10 + ((d - 48 : Nat) : Int)) = ((n * 10 + (d - 48) : Nat) : Int)
          by push_cast; ring]
        rw [show ((n * 10 + (d - 48) : Nat) : Int) = ((2 : Int) ^ 63) by
          exact_mod_cast congrArg (Nat.cast : Nat → Int) hm]
        exact wrap64_min
      rw [hwrap]
      simp [decimalValFrom]
    | cons e rest2 =>
      have hpow : (n * 10 + (d - 48)) * 10 ^ (e :: rest2).length ≤
          decimalValFrom (e :: rest2) (n * 10 + (d - 48)) := decimalValFrom_pow _ _
      have hm : (n * 10 + (d - 48) : Nat) < 2 ^ 63 := by
        have h10 : 10 ≤ 10 ^ (e :: rest2).length := by
          calc (10 : Nat) = 10 ^ 1 := by norm_num
          _ ≤ 10 ^ (e :: rest2).length := Nat.pow_le_pow_right (by norm_num) (by simp)
        nlinarith [hpow, heq]
      have hwrap : wrap64 ((n : Int) * 10 + ((d - 48 : Nat) : Int)) =
          ((n * 10 + (d - 48) : Nat) : Int) := by
        rw [show ((n : Int) * 10 + ((d - 48 : Nat) : Int)) = ((n * 10 + (d - 48) : Nat) : Int)
          by push_cast; ring]
        exact wrap64_eq_self (le_trans (by norm_num) (Int.natCast_nonneg _))
          (by exact_mod_cast hm)
      rw [hwrap]
      exact ih _ hrest heq hm

/-- C5: `extractID` on a record whose first field is a well-formed decimal
integer (optional leading minus, then decimal digits, then either a comma or
the end of the buffer) representable in `int64` returns exactly that integer.
The scan stops at the comma and the negation wraps in `int64`, which is exact
throughout the representable range, including `-2 ^ 63`. -/
theorem extractID_wellFormed (neg : Bool) (ds tail : List Nat)
    (hds : ds ≠ []) (hdig : ∀ d ∈ ds, 48 ≤ d ∧ d ≤ 57)
    (htail : tail = [] ∨ ∃ r, tail = 44 :: r)
    (hrange : decimalVal ds + (if neg then 0 else 1) ≤ 2 ^ 63) :
    extractID ((if neg then [45] else []) ++ ds ++ tail) =
      if neg then -((decimalVal ds : Nat) : Int) else ((decimalVal ds : Nat) : Int) := by
  cases ds with
  | nil => exact absurd rfl hds
  | cons d ds2 =>
  have hd := hdig d (List.mem_cons_self d ds2)
  have hne44 : d ≠ 44 := by omega
  have hne45 : d ≠ 45 := by omega
  cases neg with
  | false =>
    simp only [if_false, Bool.false_eq_true, List.nil_append, List.cons_append]
    have hlt : decimalVal (d :: ds2) < 2 ^ 63 := by
      simp only [if_false, Bool.false_eq_true] at hrange
      omega
    simp only [extractID, hne44, if_false, hne45, hd.1, hd.2, and_self, if_true]
    have hwrap : wrap64 (((d - 48 : Nat) : Int)) = (((d - 48 : Nat) : Nat) : Int) :=
      wrap64_eq_self (le_trans (by norm_num) (Int.natCast_nonneg _))
        (by exact_mod_cast (by omega : (d - 48 : Nat) < 2 ^ 63))
    rw [hwrap]
    have hval : decimalVal (d :: ds2) = decimalValFrom ds2 (d - 48) := by
      simp [decimalVal, decimalValFrom_cons]
    have hrest : ∀ x ∈ ds2, 48 ≤ x ∧ x ≤ 57 := fun x hx =>
      hdig x (List.mem_cons_of_mem d hx)
    rw [extractIDDigits_accum ds2 tail (d - 48) hrest (by rw [← hval]; exact hlt)]
    rw [extractIDDigits_stop htail]
    rw [← hval]
  | true =>
    simp only [if_true, List.cons_append, List.nil_append]
    simp only [extractID, show (45 : Nat) ≠ 44 by decide, if_false, if_true]
    have hval : decimalVal (d :: ds2) = decimalValFrom (d :: ds2) 0 := rfl
    rcases Nat.lt_or_ge (decimalVal (d :: ds2)) (2 ^ 63) with hlt | hge
    · have hacc : extractIDDigits ((d :: ds2) ++ tail) ((0 : Nat) : Int) =
          extractIDDigits tail ((decimalValFrom (d :: ds2) 0 : Nat) : Int) :=
        extractIDDigits_accum (d :: ds2) tail 0 hdig (by rw [← hval]; exact hlt)
      rw [show ((0 : Nat) : Int) = (0 : Int) by norm_num] at hacc
      simp only [List.cons_append] at hacc
      rw [hacc, extractIDDigits_stop htail]
      rw [← hval]
      have : -(2 : Int) ^ 63 ≤ -((decimalVal (d :: ds2) : Nat) : Int) ∧
          -((decimalVal (d :: ds2) : Nat) : Int) < 2 ^ 63 := by
        constructor
        · have : ((decimalVal (d :: ds2) : Nat) : Int) ≤ 2 ^ 63 := by
            exact_mod_cast Nat.le_of_lt hlt
          omega
        · have : (0 : Int) ≤ ((decimalVal (d :: ds2) : Nat) : Int) := by positivity
          omega
      rw [wrap64_eq_self this.1 this.2]
    · have heq : decimalVal (d :: ds2) = 2 ^ 63 := by
        simp only [if_true] at hrange
        omega
      have hacc : extractIDDigits ((d :: ds2) ++ tail) ((0 : Nat) : Int) =
          extractIDDigits tail (-(2 ^ 63)) :=
        extractIDDigits_boundary (d :: ds2) tail 0 hdig (by rw [← hval]; exact heq)
          (by positivity)
      rw [show ((0 : Nat) : Int) = (0 : Int) by norm_num] at hacc
      simp only [List.cons_append] at hacc
      rw [hacc, extractIDDigits_stop htail]
      rw [heq]
      rw [show (-(-((2 : Int) ^ 63))) = (2 : Int) ^ 63 by ring]
      rw [wrap64_min]
      norm_num

theorem extractID_wellFormed_witness :
    extractID [45, 49, 50, 51, 44, 120] = -123 ∧ extractID [57, 56, 55] = 987 := by
  constructor
  · have h := extractID_wellFormed true [49, 50, 51] [44, 120] (by decide) (by decide)
      (Or.inr ⟨[120], rfl⟩) (by decide)
    simpa [decimalVal, decimalValFrom] using h
  · have h := extractID_wellFormed false [57, 56, 55] [] (by decide) (by decide)
      (Or.inl rfl) (by decide)
    simpa [decimalVal, decimalValFrom] using h

/-! ### The spill-file store: write and scan (C4) -/

theorem readLine_no_newline {c : List Nat} (h : 10 ∉ c) : readLine c = (c, none) := by
  induction c with
  | nil => rfl
  | cons x rest ih =>
    simp only [List.mem_cons, not_or] at h
    simp [readLine, Ne.symm h.1, ih h.2]

theorem readLine_split {line : List Nat} (rest : List Nat) (h : 10 ∉ line) :
    readLine (line ++ 10 :: rest) = (line, some rest) := by
  induction line with
  | nil => simp [readLine]
  | cons x tl ih =>
    simp only [List.mem_cons, not_or] at h
    simp [readLine, Ne.symm h.1, ih h.2]

theorem readLine_none_eq : ∀ {c line : List Nat}, readLine c = (line, none) → line = c
  | [], _, h => by simpa [readLine] using (congrArg Prod.fst h).symm
  | x :: rest, line, h => by
    by_cases hx : x = 10
    · subst hx; simp [readLine] at h
    · cases hr : readLine rest with
      | mk l r =>
        simp only [readLine, hx, if_false, hr] at h
        cases r with
        | none =>
          have := readLine_none_eq hr
          subst this
          simp_all
        | some _ => simp_all

theorem readLine_none_no_newline : ∀ {c line : List Nat},
    readLine c = (line, none) → 10 ∉ c
  | [], _, _ => by simp
  | x :: rest, line, h => by
    by_cases hx : x = 10
    · subst hx; simp [readLine] at h
    · cases hr : readLine rest with
      | mk l r =>
        simp only [readLine, hx, if_false, hr] at h
        cases r with
        | none =>
          simp only [List.mem_cons, not_or]
          exact ⟨fun he => hx he.symm, readLine_none_no_newline hr⟩
        | some _ => simp_all

theorem readLine_some_parts : ∀ {c line rest : List Nat},
    readLine c = (line, some rest) → c = line ++ 10 :: rest ∧ 10 ∉ line
  | [], _, _, h => by simp [readLine] at h
  | x :: tl, line, rest, h => by
    by_cases hx : x = 10
    · subst hx
      simp only [readLine, if_true] at h
      obtain ⟨h1, h2⟩ := Prod.mk.injEq .. ▸ h
      simp only [Option.some.injEq] at *
      subst h1
      cases h
      simp
    · cases hr : readLine tl with
      | mk l r =>
        simp only [readLine, hx, if_false, hr] at h
        cases r with
        | none => simp_all
        | some r2 =>
          simp only [Prod.mk.injEq, Option.some.injEq] at h
          obtain ⟨h1, h2⟩ := h
          subst h2
          have := readLine_some_parts hr
          subst h1
          refine ⟨by simp [this.1], ?_⟩
          simp only [List.mem_cons, not_or]
          exact ⟨fun he => hx he.symm, this.2⟩

theorem scanAllAux_fuel : ∀ (f1 : Nat) {c : List Nat} (f2 : Nat), c.length ≤ f1 →
    c.length ≤ f2 → scanAllAux f1 c = scanAllAux f2 c := by
  intro f1
  induction f1 with
  | zero =>
    intro c f2 h1 _
    have : c = [] := List.length_eq_zero.mp (Nat.le_zero.mp h1)
    subst this
    cases f2 <;> rfl
  | succ g1 ih =>
    intro c f2 h1 h2
    cases c with
    | nil => cases f2 <;> rfl
    | cons x rest =>
      cases f2 with
      | zero => simp at h2
      | succ g2 =>
        simp only [scanAllAux]
        cases hr : readLine (x :: rest) with
        | mk line r =>
          cases r with
          | none => rfl
          | some rest2 =>
            have hparts := readLine_some_parts hr
            have hlen : rest2.length < (x :: rest).length := by
              have h3 := congrArg List.length hparts.1
              simp only [List.length_cons, List.length_append] at h3 ⊢
              omega
            have hlen1 : rest2.length ≤ g1 := by
              simp only [List.length_cons] at h1 hlen
              omega
            have hlen2 : rest2.length ≤ g2 := by
              simp only [List.length_cons] at h2 hlen
              omega
            exact congrArg (fun t => line :: t) (ih g2 hlen1 hlen2)

theorem scanAll_eq_aux {c : List Nat} {f : Nat} (h : c.length ≤ f) :
    scanAllAux f c = scanAll c := scanAllAux_fuel f c.length h (Nat.le_refl _)

theorem scanAll_nil : scanAll [] = [] := rfl

theorem scanAll_split {line : List Nat} (rest : List Nat) (h : 10 ∉ line) :
    scanAll (line ++ 10 :: rest) = line :: scanAll rest := by
  have hlen : (line ++ 10 :: rest).length = line.length + rest.length + 1 := by simp; omega
  unfold scanAll
  rw [hlen]
  have hne : line ++ 10 :: rest ≠ [] := by simp
  cases hc : line ++ 10 :: rest with
  | nil => exact absurd hc hne
  | cons y ys =>
    rw [← hc]
    have : scanAllAux (line.length + rest.length + 1) (line ++ 10 :: rest) =
        match readLine (line ++ 10 :: rest) with
        | (l, some r) => l :: scanAllAux (line.length + rest.length) r
        | (l, none) => [l] := by
      rw [hc]
      rfl
    rw [this, readLine_split rest h]
    show line :: scanAllAux (line.length + rest.length) rest = line :: scanAll rest
    rw [scanAll_eq_aux (by omega)]

theorem scanAll_last {f : List Nat} (hne : f ≠ []) (h : 10 ∉ f) : scanAll f = [f] := by
  unfold scanAll
  cases hc : f with
  | nil => exact absurd hc hne
  | cons y ys =>
    rw [← hc]
    have hlen : f.length = ys.length + 1 := by rw [hc]; simp
    rw [hlen]
    have : scanAllAux (ys.length + 1) f =
        match readLine f with
        | (l, some r) => l :: scanAllAux ys.length r
        | (l, none) => [l] := by
      rw [hc]
      rfl
    rw [this, readLine_no_newline h]

theorem scanAll_writeChunk {records : List recordWithKey}
    (h : ∀ r ∈ records, 10 ∉ r.data) :
    scanAll (writeChunk records) = records.map fun r => r.data := by
  induction records with
  | nil => rfl
  | cons r rest ih =>
    have hr := h r (List.mem_cons_self r rest)
    have hrest : ∀ x ∈ rest, 10 ∉ x.data := fun x hx => h x (List.mem_cons_of_mem r hx)
    show scanAll (r.data ++ 10 :: writeChunk rest) = r.data :: rest.map fun x => x.data
    rw [scanAll_split _ hr, ih hrest]

theorem scanAll_writeChunk_final {records : List recordWithKey} {f : List Nat}
    (h : ∀ r ∈ records, 10 ∉ r.data) (hne : f ≠ []) (hf : 10 ∉ f) :
    scanAll (writeChunk records ++ f) = (records.map fun r => r.data) ++ [f] := by
  induction records with
  | nil =>
    show scanAll ([] ++ f) = [] ++ [f]
    rw [List.nil_append, scanAll_last hne hf, List.nil_append]
  | cons r rest ih =>
    have hr := h r (List.mem_cons_self r rest)
    have hrest : ∀ x ∈ rest, 10 ∉ x.data := fun x hx => h x (List.mem_cons_of_mem r hx)
    show scanAll ((r.data ++ 10 :: writeChunk rest) ++ f) =
      (r.data :: rest.map fun x => x.data) ++ [f]
    rw [List.append_assoc, List.cons_append, scanAll_split _ hr, ih hrest]
    rfl

/-- C4: round-trip of the chunk store. Writing a non-empty list of
newline-free records with `writeChunk` and then scanning the resulting file
with repeated `next` calls yields exactly the same records in the same order
(followed by end of file); moreover a final record not terminated by a newline
is still accepted, and record bytes pass through unmodified in both cases. -/
theorem writeChunk_roundtrip (records : List recordWithKey)
    (_hne : records ≠ []) (h : ∀ r ∈ records, 10 ∉ r.data) :
    scanAll (writeChunk records) = (records.map fun r => r.data) ∧
      ∀ f : List Nat, f ≠ [] → 10 ∉ f →
        scanAll (writeChunk records ++ f) = (records.map fun r => r.data) ++ [f] :=
  ⟨scanAll_writeChunk h, fun _ hf1 hf2 => scanAll_writeChunk_final h hf1 hf2⟩

theorem writeChunk_roundtrip_witness :
    scanAll (writeChunk [⟨[49, 44, 97], [], 0⟩, ⟨[50, 44, 98], [], 0⟩]) =
        [[49, 44, 97], [50, 44, 98]] ∧
      scanAll (writeChunk [⟨[49, 44, 97], [], 0⟩, ⟨[50, 44, 98], [], 0⟩] ++ [51, 44, 99]) =
        [[49, 44, 97], [50, 44, 98], [51, 44, 99]] := by
  have h := writeChunk_roundtrip [⟨[49, 44, 97], [], 0⟩, ⟨[50, 44, 98], [], 0⟩]
    (by decide) (by decide)
  exact ⟨h.1, h.2 [51, 44, 99] (by decide) (by decide)⟩


/-! ### Heap-pop and scanner-step lemmas -/

theorem minHeapLess_irrefl (a : heapItem) : minHeapLess a a = false := by
  unfold minHeapLess
  cases ha : a.useInt <;> simp [ha, lexLt_irrefl]

theorem minHeapLess_asymm {a b : heapItem} (h : minHeapLess a b = true) :
    minHeapLess b a = false := by
  unfold minHeapLess at h ⊢
  cases ha : a.useInt <;> cases hb : b.useInt <;> simp [ha, hb] at h ⊢
  · exact lexLt_asymm h
  all_goals omega

theorem minHeapLess_neg_trans {x y z : heapItem} (hu : x.useInt = y.useInt)
    (hu2 : y.useInt = z.useInt) (h1 : minHeapLess y x = false)
    (h2 : minHeapLess z y = false) : minHeapLess z x = false := by
  unfold minHeapLess at h1 h2 ⊢
  cases hx : x.useInt with
  | true =>
    have hy : y.useInt = true := hu ▸ hx
    have hz : z.useInt = true := hu2 ▸ hy
    simp [hx, hy, hz] at h1 h2 ⊢
    omega
  | false =>
    have hy : y.useInt = false := hu ▸ hx
    have hz : z.useInt = false := hu2 ▸ hy
    simp [hx, hy, hz] at h1 h2 ⊢
    exact lexLt_neg_trans h1 h2

theorem popMin_eq_none {h : List heapItem} : popMin h = none ↔ h = [] := by
  cases h with
  | nil => simp [popMin]
  | cons x xs =>
    simp only [popMin]
    cases hp : popMin xs with
    | none => simp
    | some p =>
      obtain ⟨m, rest⟩ := p
      by_cases hc : minHeapLess m x = true <;> simp [hc]

theorem popMin_perm : ∀ {h : List heapItem} {m : heapItem} {rest : List heapItem},
    popMin h = some (m, rest) → h.Perm (m :: rest)
  | [], _, _, h => by simp [popMin] at h
  | x :: xs, m, rest, h => by
    simp only [popMin] at h
    cases hp : popMin xs with
    | none =>
      rw [hp] at h
      have hxs : xs = [] := popMin_eq_none.mp hp
      subst hxs
      simp only [Option.some.injEq, Prod.mk.injEq] at h
      obtain ⟨rfl, rfl⟩ := h
      exact List.Perm.refl _
    | some p =>
      obtain ⟨m2, rest2⟩ := p
      rw [hp] at h
      by_cases hc : minHeapLess m2 x = true
      · simp only [hc, if_true, Option.some.injEq, Prod.mk.injEq] at h
        obtain ⟨rfl, rfl⟩ := h
        have ih := popMin_perm hp
        exact (ih.cons x).trans (List.Perm.swap m2 x rest2)
      · simp [hc] at h
        obtain ⟨rfl, rfl⟩ := h
        exact List.Perm.refl _

theorem popMin_min {b : Bool} : ∀ {h : List heapItem} {m : heapItem} {rest : List heapItem},
    (∀ it ∈ h, it.useInt = b) → popMin h = some (m, rest) →
    ∀ y ∈ rest, minHeapLess y m = false
  | [], _, _, _, hp => by simp [popMin] at hp
  | x :: xs, m, rest, hb, hp => by
    simp only [popMin] at hp
    cases hq : popMin xs with
    | none =>
      rw [hq] at hp
      simp only [Option.some.injEq, Prod.mk.injEq] at hp
      obtain ⟨rfl, rfl⟩ := hp
      intro y hy
      simp at hy
    | some p =>
      obtain ⟨m2, rest2⟩ := p
      rw [hq] at hp
      have hbxs : ∀ it ∈ xs, it.useInt = b := fun it hit =>
        hb it (List.mem_cons_of_mem x hit)
      have ihmin := popMin_min (b := b) hbxs hq
      have hm2 : m2 ∈ xs := (popMin_perm hq).symm.subset (List.mem_cons_self m2 rest2)
      by_cases hc : minHeapLess m2 x = true
      · simp only [hc, if_true, Option.some.injEq, Prod.mk.injEq] at hp
        obtain ⟨rfl, rfl⟩ := hp
        intro y hy
        rcases List.mem_cons.mp hy with hy2 | hy2
        · subst hy2
          exact minHeapLess_asymm hc
        · exact ihmin y hy2
      · simp [hc] at hp
        obtain ⟨rfl, rfl⟩ := hp
        intro y hy
        have hyx : y = m2 ∨ y ∈ rest2 :=
          List.mem_cons.mp ((popMin_perm hq).subset hy)
        have hym2 : minHeapLess y m2 = false := by
          rcases hyx with hy2 | hy2
          · subst hy2
            exact minHeapLess_irrefl y
          · exact ihmin y hy2
        have hne : minHeapLess m2 x = false := by
          cases hcc : minHeapLess m2 x with
          | false => rfl
          | true => exact absurd hcc hc
        have hbm : x.useInt = b := hb x (List.mem_cons_self x xs)
        have hbm2 : m2.useInt = b := hbxs m2 hm2
        have hby : y.useInt = b := hbxs y hy
        exact minHeapLess_neg_trans (hbm.trans hbm2.symm) (hbm2.trans hby.symm) hne hym2

theorem scannerNext_some_scan {sc : Scanner} {r : List Nat} {sc2 : Scanner}
    (h : scannerNext sc = .ok (some (r, sc2))) :
    scanAll sc.content = r :: scanAll sc2.content ∧
      sc2.content.length < sc.content.length ∧ sc2.tailErr = sc.tailErr := by
  unfold scannerNext at h
  cases hr : readLine sc.content with
  | mk line rest? =>
    rw [hr] at h
    cases rest? with
    | some rest =>
      have h3 : (line, (⟨rest, sc.tailErr⟩ : Scanner)) = (r, sc2) :=
        Option.some.inj (Except.ok.inj h)
      have hline : line = r := congrArg Prod.fst h3
      have hsc : (⟨rest, sc.tailErr⟩ : Scanner) = sc2 := congrArg Prod.snd h3
      subst hline
      subst hsc
      have hparts := readLine_some_parts hr
      refine ⟨?_, ?_, rfl⟩
      · rw [hparts.1, scanAll_split _ hparts.2]
      · have hl := congrArg List.length hparts.1
        simp only [List.length_append, List.length_cons] at hl
        show rest.length < sc.content.length
        omega
    | none =>
      by_cases he : sc.tailErr
      · simp [he] at h
      · simp only [he, if_false, Bool.false_eq_true] at h
        by_cases hl : line.isEmpty
        · simp [hl] at h
        · simp only [hl, if_false, Bool.false_eq_true] at h
          have h3 : (line, (⟨[], false⟩ : Scanner)) = (r, sc2) :=
            Option.some.inj (Except.ok.inj h)
          have hline : line = r := congrArg Prod.fst h3
          have hsc : (⟨[], false⟩ : Scanner) = sc2 := congrArg Prod.snd h3
          subst hline
          subst hsc
          have hle := readLine_none_eq hr
          subst hle
          have hnn := readLine_none_no_newline hr
          have hne : sc.content ≠ [] := by
            intro hcc
            rw [hcc] at hl
            simp at hl
          refine ⟨?_, ?_, by simp [he]⟩
          · rw [scanAll_last hne hnn]
            rfl
          · show ([] : List Nat).length < sc.content.length
            cases hcc : sc.content with
            | nil => exact absurd hcc hne
            | cons _ _ => simp

theorem scannerNext_false_none {c : List Nat} :
    scannerNext ⟨c, false⟩ = .ok none ↔ c = [] := by
  constructor
  · intro h
    unfold scannerNext at h
    cases hr : readLine c with
    | mk line rest? =>
      rw [hr] at h
      cases rest? with
      | some rest => simp at h
      | none =>
        simp only [Bool.false_eq_true, if_false] at h
        by_cases hl : line.isEmpty
        · have := readLine_none_eq hr
          subst this
          exact List.isEmpty_iff.mp hl
        · simp [hl] at h
  · intro h
    subst h
    rfl

theorem scannerNext_false_not_error {c : List Nat} {e : Unit} :
    scannerNext ⟨c, false⟩ ≠ .error e := by
  unfold scannerNext
  cases hr : readLine c with
  | mk line rest? =>
    cases rest? with
    | some rest => simp
    | none =>
      simp only [Bool.false_eq_true, if_false]
      by_cases hl : line.isEmpty <;> simp [hl]

/-! ### Comparator transfer and chunk-sort lemmas -/

theorem mkHeapItem_val (s : Nat) (rec : R) (i : Nat) : (mkHeapItem s rec i).val = rec := by
  unfold mkHeapItem
  split <;> rfl

theorem mkHeapItem_i (s : Nat) (rec : R) (i : Nat) : (mkHeapItem s rec i).i = i := by
  unfold mkHeapItem
  split <;> rfl

theorem mkHeapItem_useInt (s : Nat) (rec : R) (i : Nat) :
    (mkHeapItem s rec i).useInt = decide (s = 0) := by
  unfold mkHeapItem
  split <;> simp_all

theorem mkRecordWithKey_data (s : Nat) (v : R) : (mkRecordWithKey s v).data = v := by
  unfold mkRecordWithKey
  split <;> rfl

theorem keyLeB_eq_not_minHeapLess (s : Nat) (a b : R) (ia ib : Nat) :
    keyLeB s a b = !minHeapLess (mkHeapItem s b ib) (mkHeapItem s a ia) := by
  by_cases hs : s = 0
  · subst hs
    simp only [keyLeB, mkHeapItem, minHeapLess, if_true, if_pos rfl]
    simp only [Bool.or_self, if_true]
    rw [← decide_not, decide_eq_decide]
    exact (Int.not_lt).symm
  · simp only [keyLeB, mkHeapItem, minHeapLess, hs, if_false]
    simp [hs]

theorem keyLe_trans {s : Nat} {a b c : R} (h1 : keyLe s a b) (h2 : keyLe s b c) :
    keyLe s a c := by
  unfold keyLe keyLeB at h1 h2 ⊢
  by_cases hs : s = 0
  · simp only [hs, if_true, decide_eq_true_eq] at h1 h2 ⊢
    omega
  · simp only [hs, if_false, Bool.not_eq_true'] at h1 h2 ⊢
    exact lexLt_neg_trans h1 h2

theorem recLess_asymm {s : Nat} {a b : recordWithKey} (h : recLess s a b = true) :
    recLess s b a = false := by
  unfold recLess at h ⊢
  by_cases hs : s = 0
  · simp only [hs, if_true, decide_eq_true_eq] at h
    simp only [hs, if_true, decide_eq_false_iff_not]
    omega
  · simp only [hs, if_false] at h ⊢
    exact lexLt_asymm h

theorem recLess_neg_trans {s : Nat} {x y z : recordWithKey} (h1 : recLess s y x = false)
    (h2 : recLess s z y = false) : recLess s z x = false := by
  unfold recLess at h1 h2 ⊢
  by_cases hs : s = 0
  · simp only [hs, if_true, decide_eq_false_iff_not] at h1 h2 ⊢
    omega
  · simp only [hs, if_false] at h1 h2 ⊢
    exact lexLt_neg_trans h1 h2

theorem recLe_total (s : Nat) : ∀ a b : recordWithKey, recLe s a b ∨ recLe s b a := by
  intro a b
  unfold recLe
  cases hab : recLess s b a with
  | false => exact Or.inl rfl
  | true => exact Or.inr (recLess_asymm hab)

theorem sortRecords_perm (s : Nat) (rs : List recordWithKey) :
    (sortRecords s rs).Perm rs := List.perm_insertionSort _ _

theorem sortRecords_sorted (s : Nat) (rs : List recordWithKey) :
    (sortRecords s rs).Pairwise (recLe s) := by
  haveI : IsTotal recordWithKey (recLe s) := ⟨recLe_total s⟩
  haveI : IsTrans recordWithKey (recLe s) := ⟨fun a b c h1 h2 => by
    unfold recLe at h1 h2 ⊢
    exact recLess_neg_trans h1 h2⟩
  exact List.sorted_insertionSort _ _

theorem recLe_keyLe {s : Nat} {r1 r2 : recordWithKey}
    (h1 : r1 = mkRecordWithKey s r1.data) (h2 : r2 = mkRecordWithKey s r2.data)
    (h : recLe s r1 r2) : keyLe s r1.data r2.data := by
  unfold recLe recLess at h
  unfold keyLe keyLeB
  by_cases hs : s = 0
  · subst hs
    rw [h1, h2] at h
    simp [mkRecordWithKey] at h ⊢
    omega
  · rw [h1, h2] at h
    simp [mkRecordWithKey, hs] at h ⊢
    exact h

theorem chain_keyLe_of_sorted {s : Nat} {rs : List recordWithKey}
    (hmk : ∀ r ∈ rs, r = mkRecordWithKey s r.data) (hs : rs.Pairwise (recLe s)) :
    List.Chain' (keyLe s) (rs.map fun r => r.data) := by
  have hp : rs.Pairwise (fun a b => keyLe s a.data b.data) := by
    refine hs.imp_of_mem ?_
    intro a b ha hb hab
    exact recLe_keyLe (hmk a ha) (hmk b hb) hab
  have := (List.pairwise_map (f := fun r : recordWithKey => r.data)
    (R := keyLe s) (l := rs)).mpr hp
  exact this.chain'

/-! ### Dissection of one merge iteration -/

theorem pubBatch_flatten (pub : List (List R)) (batch : List R) (v : R) :
    (if 1000 ≤ (batch ++ [v]).length then pub ++ [batch ++ [v]] else pub).flatten ++
      (if 1000 ≤ (batch ++ [v]).length then ([] : List R) else batch ++ [v]) =
    (pub.flatten ++ batch) ++ [v] := by
  split <;> simp

theorem mergeStep_cases {s : Nat} {st st' : MergeState} (h : mergeStep s st = some st') :
    ∃ m rest, popMin st.heap = some (m, rest) ∧
      st'.published.flatten ++ st'.batch = (st.published.flatten ++ st.batch) ++ [m.val] ∧
      st'.mergedCount = st.mergedCount + 1 ∧
      ((∃ sc recd sc2, st.scanners[m.i]? = some sc ∧
          scannerNext sc = .ok (some (recd, sc2)) ∧
          st'.scanners = st.scanners.set m.i sc2 ∧
          st'.heap = rest ++ [mkHeapItem s recd m.i]) ∨
        (st'.scanners = st.scanners ∧ st'.heap = rest ∧
          (st.scanners[m.i]? = none ∨
            ∃ sc, st.scanners[m.i]? = some sc ∧
              (scannerNext sc = .ok none ∨ scannerNext sc = .error ())))) := by
  unfold mergeStep at h
  cases hpop : popMin st.heap with
  | none =>
    rw [hpop] at h
    exact Option.noConfusion h
  | some p =>
    obtain ⟨item, hrest⟩ := p
    rw [hpop] at h
    dsimp only at h
    refine ⟨item, hrest, rfl, ?_⟩
    cases hscan : st.scanners[item.i]? with
    | none =>
      rw [hscan] at h
      have hst : st' = ⟨st.scanners, hrest,
          if 1000 ≤ (st.batch ++ [item.val]).length then [] else st.batch ++ [item.val],
          if 1000 ≤ (st.batch ++ [item.val]).length then st.published ++ [st.batch ++ [item.val]]
            else st.published,
          st.mergedCount + 1⟩ := (Option.some.inj h).symm
      rw [hst]
      exact ⟨pubBatch_flatten _ _ _, rfl, Or.inr ⟨rfl, rfl, Or.inl rfl⟩⟩
    | some sc =>
      rw [hscan] at h
      dsimp only at h
      cases hnext : scannerNext sc with
      | error e =>
        rw [hnext] at h
        have hst : st' = ⟨st.scanners, hrest,
            if 1000 ≤ (st.batch ++ [item.val]).length then [] else st.batch ++ [item.val],
            if 1000 ≤ (st.batch ++ [item.val]).length then
              st.published ++ [st.batch ++ [item.val]] else st.published,
            st.mergedCount + 1⟩ := (Option.some.inj h).symm
        rw [hst]
        exact ⟨pubBatch_flatten _ _ _, rfl,
          Or.inr ⟨rfl, rfl, Or.inr ⟨sc, rfl, Or.inr hnext⟩⟩⟩
      | ok o =>
        cases o with
        | none =>
          rw [hnext] at h
          have hst : st' = ⟨st.scanners, hrest,
              if 1000 ≤ (st.batch ++ [item.val]).length then [] else st.batch ++ [item.val],
              if 1000 ≤ (st.batch ++ [item.val]).length then
                st.published ++ [st.batch ++ [item.val]] else st.published,
              st.mergedCount + 1⟩ := (Option.some.inj h).symm
          rw [hst]
          exact ⟨pubBatch_flatten _ _ _, rfl,
            Or.inr ⟨rfl, rfl, Or.inr ⟨sc, rfl, Or.inl hnext⟩⟩⟩
        | some q =>
          obtain ⟨recd, sc2⟩ := q
          rw [hnext] at h
          have hst : st' = ⟨st.scanners.set item.i sc2,
              hrest ++ [mkHeapItem s recd item.i],
              if 1000 ≤ (st.batch ++ [item.val]).length then [] else st.batch ++ [item.val],
              if 1000 ≤ (st.batch ++ [item.val]).length then
                st.published ++ [st.batch ++ [item.val]] else st.published,
              st.mergedCount + 1⟩ := (Option.some.inj h).symm
          rw [hst]
          exact ⟨pubBatch_flatten _ _ _, rfl,
            Or.inl ⟨sc, recd, sc2, rfl, hnext, rfl, rfl⟩⟩

/-! ### Measure decrease and loop iteration lemmas -/

theorem scanners_decomp {l : List Scanner} {i : Nat} {sc : Scanner}
    (h : l[i]? = some sc) :
    l = l.take i ++ sc :: l.drop (i + 1) ∧
      ∀ sc2, l.set i sc2 = l.take i ++ sc2 :: l.drop (i + 1) := by
  obtain ⟨hlt, hget⟩ := List.getElem?_eq_some.mp h
  constructor
  · conv_lhs => rw [← List.take_append_drop i l]
    rw [List.drop_eq_getElem_cons hlt, hget]
  · intro sc2
    exact List.set_eq_take_cons_drop sc2 hlt

theorem sum_map_set {l : List Scanner} {i : Nat} {sc sc2 : Scanner}
    (h : l[i]? = some sc) :
    ((l.set i sc2).map fun x => x.content.length).sum + sc.content.length =
      (l.map fun x => x.content.length).sum + sc2.content.length := by
  obtain ⟨hl, hset⟩ := scanners_decomp h
  rw [hset sc2]
  conv_rhs => rw [hl]
  simp [List.sum_append]
  omega

theorem flatten_map_set_perm {l : List Scanner} {i : Nat} {sc sc2 : Scanner}
    (h : l[i]? = some sc) (f : Scanner → List R) :
    (((l.set i sc2).map f).flatten ++ f sc).Perm ((l.map f).flatten ++ f sc2) := by
  obtain ⟨hl, hset⟩ := scanners_decomp h
  rw [hset sc2]
  conv_rhs => rw [hl]
  simp only [List.map_append, List.map_cons, List.flatten_append, List.flatten_cons]
  refine List.perm_iff_count.mpr fun a => ?_
  simp only [List.count_append]
  omega

theorem mergeStep_measure {s : Nat} {st st' : MergeState}
    (h : mergeStep s st = some st') : mergeMeasure st' < mergeMeasure st := by
  obtain ⟨m, rest, hpop, _, _, hcase⟩ := mergeStep_cases h
  have hlen : st.heap.length = rest.length + 1 := by
    have := (popMin_perm hpop).length_eq
    simpa using this
  rcases hcase with ⟨sc, recd, sc2, hscan, hnext, hscs, hheap⟩ | ⟨hscs, hheap, _⟩
  · have hdec := (scannerNext_some_scan hnext).2.1
    unfold mergeMeasure
    rw [hscs, hheap]
    have hsum := @sum_map_set _ _ _ sc2 hscan
    simp only [List.length_append, List.length_cons, List.length_nil]
    omega
  · unfold mergeMeasure
    rw [hscs, hheap]
    omega

theorem mergeLoopFuel_invariant {s : Nat} (P : MergeState → Prop)
    (hstep : ∀ st st', P st → mergeStep s st = some st' → P st') :
    ∀ (fuel : Nat) (st : MergeState), P st → P (mergeLoopFuel s fuel st) := by
  intro fuel
  induction fuel with
  | zero => intro st hP; exact hP
  | succ f ih =>
    intro st hP
    simp only [mergeLoopFuel]
    cases hs : mergeStep s st with
    | none => exact hP
    | some st2 => exact ih st2 (hstep st st2 hP hs)

theorem mergeLoopFuel_terminal {s : Nat} :
    ∀ (fuel : Nat) (st : MergeState), mergeMeasure st < fuel →
      mergeStep s (mergeLoopFuel s fuel st) = none := by
  intro fuel
  induction fuel with
  | zero => intro st h; omega
  | succ f ih =>
    intro st h
    simp only [mergeLoopFuel]
    cases hs : mergeStep s st with
    | none => exact hs
    | some st2 =>
      have := mergeStep_measure hs
      exact ih st2 (by omega)

/-! ### The heap holds at most one item per origin file (C9) -/

theorem initLoop_origin_bounds (s : Nat) : ∀ (scs : List Scanner) (base : Nat),
    (∀ it ∈ (initLoop s scs base).1, base ≤ it.i ∧ it.i < base + scs.length) ∧
      distinctOrigins (initLoop s scs base).1 := by
  intro scs
  induction scs with
  | nil => exact fun base => ⟨fun it hit => absurd hit (by simp [initLoop]), List.Pairwise.nil⟩
  | cons sc rest ih =>
    intro base
    obtain ⟨ihb, ihd⟩ := ih (base + 1)
    simp only [initLoop]
    cases hnext : scannerNext sc with
    | error e =>
      refine ⟨fun it hit => ?_, ihd⟩
      have := ihb it hit
      simp only [List.length_cons]
      omega
    | ok o =>
      cases o with
      | none =>
        refine ⟨fun it hit => ?_, ihd⟩
        have := ihb it hit
        simp only [List.length_cons]
        omega
      | some q =>
        obtain ⟨recd, sc2⟩ := q
        constructor
        · intro it hit
          simp only [List.length_cons]
          rcases List.mem_cons.mp hit with rfl | hit2
          · rw [mkHeapItem_i]
            omega
          · have := ihb it hit2
            omega
        · refine List.Pairwise.cons ?_ ihd
          intro y hy
          rw [mkHeapItem_i]
          have := (ihb y hy).1
          omega

theorem mergeStep_distinct {s : Nat} {st st' : MergeState}
    (hd : distinctOrigins st.heap) (h : mergeStep s st = some st') :
    distinctOrigins st'.heap ∧
      ∀ it ∈ st'.heap, it ∈ st.heap ∨
        ∃ m rest, popMin st.heap = some (m, rest) ∧ it.i = m.i := by
  obtain ⟨m, rest, hpop, _, _, hcase⟩ := mergeStep_cases h
  have hperm := popMin_perm hpop
  have hdist2 : distinctOrigins (m :: rest) :=
    (List.Perm.pairwise_iff (fun hxy => hxy.symm) hperm).mp hd
  have hrestd : distinctOrigins rest := hdist2.tail
  have hmr : ∀ y ∈ rest, m.i ≠ y.i := List.pairwise_cons.mp hdist2 |>.1
  rcases hcase with ⟨sc, recd, sc2, hscan, hnext, hscs, hheap⟩ | ⟨hscs, hheap, _⟩
  · constructor
    · rw [hheap]
      refine List.pairwise_append.mpr ⟨hrestd, List.pairwise_singleton _ _, ?_⟩
      intro a ha b hb
      rw [List.mem_singleton.mp hb, mkHeapItem_i]
      exact fun hai => (hmr a ha) hai.symm
    · intro it hit
      rw [hheap] at hit
      rcases List.mem_append.mp hit with hit2 | hit2
      · exact Or.inl (hperm.symm.subset (List.mem_cons_of_mem m hit2))
      · rw [List.mem_singleton.mp hit2, mkHeapItem_i]
        exact Or.inr ⟨m, rest, hpop, rfl⟩
  · constructor
    · rw [hheap]
      exact hrestd
    · intro it hit
      rw [hheap] at hit
      exact Or.inl (hperm.symm.subset (List.mem_cons_of_mem m hit))

/-- C9: the merge maintains at most one heap item per origin file. After heap
initialization the origins are pairwise distinct, and every pop-advance-push
step preserves distinctness; moreover any item present after a step either
survived from before or is the fresh item pushed for the origin file of the
item just popped. -/
theorem kWayMerge_heap_unique_origins (s : Nat) (files : List SpillFile) :
    distinctOrigins (initLoop s (files.map fun f => Scanner.mk f.content f.tailErr) 0).1 ∧
      ∀ st st' : MergeState, distinctOrigins st.heap → mergeStep s st = some st' →
        distinctOrigins st'.heap ∧
          ∀ it ∈ st'.heap, it ∈ st.heap ∨
            ∃ m rest, popMin st.heap = some (m, rest) ∧ it.i = m.i :=
  ⟨(initLoop_origin_bounds s _ 0).2, fun _ _ hd h => mergeStep_distinct hd h⟩

theorem kWayMerge_heap_unique_origins_witness :
    distinctOrigins (initLoop 0
        ([SpillFile.mk [116] 0 [49, 10, 51, 10] false,
          SpillFile.mk [116] 1 [50, 10] false].map fun f =>
            Scanner.mk f.content f.tailErr) 0).1 ∧
      distinctOrigins (MergeState.mk
        [⟨[], false⟩, ⟨[50, 10], false⟩]
        [⟨[], 2, true, [50], 1⟩, ⟨[], 3, true, [51], 0⟩] [[49]] [] 1).heap :=
  ⟨(kWayMerge_heap_unique_origins 0
      [SpillFile.mk [116] 0 [49, 10, 51, 10] false,
        SpillFile.mk [116] 1 [50, 10] false]).1,
    ((kWayMerge_heap_unique_origins 0
        [SpillFile.mk [116] 0 [49, 10, 51, 10] false,
          SpillFile.mk [116] 1 [50, 10] false]).2
      (MergeState.mk [⟨[51, 10], false⟩, ⟨[50, 10], false⟩]
        [mkHeapItem 0 [49] 0, mkHeapItem 0 [50] 1] [] [] 0)
      (MergeState.mk [⟨[], false⟩, ⟨[50, 10], false⟩]
        [⟨[], 2, true, [50], 1⟩, ⟨[], 3, true, [51], 0⟩] [[49]] [] 1)
      (by unfold distinctOrigins; decide) (by decide)).1⟩

/-! ### Determinism of the merge in the spill-file contents (C10) -/

theorem scanners_of_contents : ∀ (files1 files2 : List SpillFile),
    files1.map (fun f => f.content) = files2.map (fun f => f.content) →
    (∀ f ∈ files1, f.tailErr = false) → (∀ f ∈ files2, f.tailErr = false) →
    files1.map (fun f => Scanner.mk f.content f.tailErr) =
      files2.map (fun f => Scanner.mk f.content f.tailErr)
  | [], [], _, _, _ => rfl
  | [], _ :: _, hc, _, _ => by simp at hc
  | _ :: _, [], hc, _, _ => by simp at hc
  | f1 :: r1, f2 :: r2, hc, h1, h2 => by
    simp only [List.map_cons, List.cons.injEq] at hc ⊢
    refine ⟨?_, scanners_of_contents r1 r2 hc.2
      (fun f hf => h1 f (List.mem_cons_of_mem f1 hf))
      (fun f hf => h2 f (List.mem_cons_of_mem f2 hf))⟩
    rw [hc.1, h1 f1 (List.mem_cons_self f1 r1), h2 f2 (List.mem_cons_self f2 r2)]

/-- C10: the k-way merge is deterministic in its inputs. Two merge runs over
spill files with byte-for-byte identical contents (and healthy disks) and the
same selector produce identical results — the same batches in the same order,
including the relative order of records whose keys compare equal, and the same
`mergedCount` — irrespective of the files' paths. -/
theorem kWayMergeToKafka_deterministic (s : Nat) (files1 files2 : List SpillFile)
    (hc : files1.map (fun f => f.content) = files2.map (fun f => f.content))
    (h1 : ∀ f ∈ files1, f.tailErr = false) (h2 : ∀ f ∈ files2, f.tailErr = false) :
    kWayMergeToKafka s files1 = kWayMergeToKafka s files2 := by
  unfold kWayMergeToKafka
  rw [scanners_of_contents files1 files2 hc h1 h2]

theorem kWayMergeToKafka_deterministic_witness :
    kWayMergeToKafka 0
        [SpillFile.mk [97] 0 [49, 10, 51, 10] false, SpillFile.mk [97] 1 [50, 10] false] =
      kWayMergeToKafka 0
        [SpillFile.mk [98, 99] 7 [49, 10, 51, 10] false,
          SpillFile.mk [100] 9 [50, 10] false] :=
  kWayMergeToKafka_deterministic 0
    [SpillFile.mk [97] 0 [49, 10, 51, 10] false, SpillFile.mk [97] 1 [50, 10] false]
    [SpillFile.mk [98, 99] 7 [49, 10, 51, 10] false, SpillFile.mk [100] 9 [50, 10] false]
    (by decide) (by decide) (by decide)

/-! ### A non-EOF cursor read error does not abort the merge (C3) -/

/-- C3 is refuted by the code: when advancing a cursor after a pop fails with a
non-EOF read error, `kWayMergeToKafka` does not abort — the `err == nil` test
of the merge loop treats the failure exactly like end-of-file. Concretely,
with file 0 holding the records `1` and `3,c` but failing with a read error
while the cursor is reading `3,c`, and file 1 holding `2`, the merge emits
`1` from the failing file, swallows the error, continues with file 2's record,
drops `3,c`, and reports success with two merged records; no error value
exists anywhere in the result. -/
theorem kWayMergeToKafka_swallows_read_error :
    kWayMergeToKafka 0
        [SpillFile.mk [116] 0 [49, 10, 51, 44, 99] true,
          SpillFile.mk [116] 1 [50, 10] false] =
      ([[[49], [50]]], 2) := rfl

/-! ### Multiset bookkeeping of the merge loop (towards C2) -/

theorem mergeStep_eq_none {s : Nat} {st : MergeState} :
    mergeStep s st = none ↔ st.heap = [] := by
  unfold mergeStep
  cases hpop : popMin st.heap with
  | none => simpa using popMin_eq_none.mp hpop
  | some p =>
    obtain ⟨item, hrest⟩ := p
    constructor
    · intro h
      dsimp only at h
      cases hscan : st.scanners[item.i]? with
      | none => rw [hscan] at h; exact Option.noConfusion h
      | some sc =>
        rw [hscan] at h
        dsimp only at h
        cases hnext : scannerNext sc with
        | error e => rw [hnext] at h; exact Option.noConfusion h
        | ok o =>
          cases o with
          | none => rw [hnext] at h; exact Option.noConfusion h
          | some q =>
            obtain ⟨recd, sc2⟩ := q
            rw [hnext] at h
            exact Option.noConfusion h
    · intro h
      rw [h] at hpop
      simp [popMin] at hpop

theorem mergeFinish_flatten (st : MergeState) :
    (mergeFinish st).1.flatten = emitted st := by
  unfold mergeFinish emitted
  by_cases hb : st.batch.isEmpty
  · simp [hb, List.isEmpty_iff.mp hb]
  · simp [hb]

theorem mergeStep_total_perm {s : Nat} {st st' : MergeState}
    (h : mergeStep s st = some st') : (totalRecords st').Perm (totalRecords st) := by
  obtain ⟨m, rest, hpop, hemit, _, hcase⟩ := mergeStep_cases h
  have hc1 := (((popMin_perm hpop).map fun it => it.val)).count_eq
  refine List.perm_iff_count.mpr fun a => ?_
  have hc1a := hc1 a
  unfold totalRecords pendingRecords emitted at *
  rcases hcase with ⟨sc, recd, sc2, hscan, hnext, hscs, hheap⟩ | ⟨hscs, hheap, _⟩
  · have hscan2 := (scannerNext_some_scan hnext).1
    have hc2 := (@flatten_map_set_perm _ _ _ sc2 hscan fun x => scanAll x.content).count_eq a
    rw [hscan2] at hc2
    rw [hemit, hscs, hheap]
    simp only [List.map_append, List.map_cons, List.map_nil, mkHeapItem_val,
      List.count_append, List.count_cons, List.flatten_cons, List.flatten_append,
      List.flatten_nil, List.count_nil, List.append_nil, List.nil_append] at hc1a hc2 ⊢
    omega
  · rw [hemit, hscs, hheap]
    simp only [List.map_cons, List.map_nil, List.count_append, List.count_cons,
      List.count_nil, List.append_nil, List.nil_append] at hc1a ⊢
    omega

theorem scanner_eta_false {sc : Scanner} (h : sc.tailErr = false) :
    sc = ⟨sc.content, false⟩ := by
  cases sc
  simp_all

theorem mem_of_getElem?_scanner {l : List Scanner} {i : Nat} {sc : Scanner}
    (h : l[i]? = some sc) : sc ∈ l := by
  obtain ⟨hlt, hget⟩ := List.getElem?_eq_some.mp h
  exact hget ▸ List.getElem_mem hlt

theorem mergeStep_MComplete {s : Nat} {st st' : MergeState}
    (hmc : MComplete st) (h : mergeStep s st = some st') : MComplete st' := by
  obtain ⟨hte, hrange, hcov⟩ := hmc
  obtain ⟨m, rest, hpop, _, _, hcase⟩ := mergeStep_cases h
  have hperm := popMin_perm hpop
  have hrestmem : ∀ it ∈ rest, it ∈ st.heap := fun it hit =>
    hperm.symm.subset (List.mem_cons_of_mem m hit)
  rcases hcase with ⟨sc, recd, sc2, hscan, hnext, hscs, hheap⟩ | ⟨hscs, hheap, hsub⟩
  · have hmi : m.i < st.scanners.length := (List.getElem?_eq_some.mp hscan).1
    have hsc2te : sc2.tailErr = false :=
      (scannerNext_some_scan hnext).2.2.trans (hte sc (mem_of_getElem?_scanner hscan))
    refine ⟨?_, ?_, ?_⟩
    · intro x hx
      rw [hscs] at hx
      rcases List.mem_or_eq_of_mem_set hx with hx2 | rfl
      · exact hte x hx2
      · exact hsc2te
    · intro it hit
      rw [hscs, List.length_set]
      rw [hheap] at hit
      rcases List.mem_append.mp hit with hit2 | hit2
      · exact hrange it (hrestmem it hit2)
      · rw [List.mem_singleton.mp hit2, mkHeapItem_i]
        exact hmi
    · intro i hi
      rw [hscs, List.length_set] at hi
      by_cases hieq : i = m.i
      · subst hieq
        refine Or.inl ⟨mkHeapItem s recd m.i, ?_, mkHeapItem_i s recd m.i⟩
        rw [hheap]
        exact List.mem_append.mpr (Or.inr (List.mem_singleton.mpr rfl))
      · rcases hcov i hi with ⟨it, hit, hiti⟩ | hempty
        · have hitm : it ≠ m := fun he => hieq (by rw [← hiti, he])
          have : it ∈ m :: rest := hperm.subset hit
          rcases List.mem_cons.mp this with he | hitr
          · exact absurd he hitm
          · refine Or.inl ⟨it, ?_, hiti⟩
            rw [hheap]
            exact List.mem_append.mpr (Or.inl hitr)
        · refine Or.inr ?_
          rw [hscs, List.getElem?_set_ne (fun he => hieq he.symm)]
          exact hempty
  · refine ⟨?_, ?_, ?_⟩
    · intro x hx
      rw [hscs] at hx
      exact hte x hx
    · intro it hit
      rw [hscs]
      rw [hheap] at hit
      exact hrange it (hrestmem it hit)
    · intro i hi
      rw [hscs] at hi
      by_cases hieq : i = m.i
      · subst hieq
        rcases hsub with hnone | ⟨sc, hscan, hor⟩
        · exact absurd hnone (by simp [List.getElem?_eq_none_iff]; omega)
        · have hscte : sc.tailErr = false := hte sc (mem_of_getElem?_scanner hscan)
          have hsceta := scanner_eta_false hscte
          rcases hor with heof | herr
          · rw [hsceta] at heof
            have hcnil := scannerNext_false_none.mp heof
            refine Or.inr ?_
            rw [hscs]
            intro x hx
            rw [hscan] at hx
            have hxsc : x = sc := (Option.some.inj (Option.mem_def.mp hx)).symm
            rw [hxsc, hcnil]
            exact scanAll_nil
          · rw [hsceta] at herr
            exact absurd herr scannerNext_false_not_error
      · rcases hcov i hi with ⟨it, hit, hiti⟩ | hempty
        · have hitm : it ≠ m := fun he => hieq (by rw [← hiti, he])
          have : it ∈ m :: rest := hperm.subset hit
          rcases List.mem_cons.mp this with he | hitr
          · exact absurd he hitm
          · refine Or.inl ⟨it, ?_, hiti⟩
            rw [hheap]
            exact hitr
        · refine Or.inr ?_
          rw [hscs]
          exact hempty

theorem initLoop_spec (s : Nat) : ∀ (scs : List Scanner) (base : Nat),
    (∀ sc ∈ scs, sc.tailErr = false) →
    (initLoop s scs base).2.length = scs.length ∧
    (∀ sc ∈ (initLoop s scs base).2, sc.tailErr = false) ∧
    (∀ it ∈ (initLoop s scs base).1, it = mkHeapItem s it.val it.i ∧ base ≤ it.i ∧
      ∃ sc0 sc2, scs[it.i - base]? = some sc0 ∧
        (initLoop s scs base).2[it.i - base]? = some sc2 ∧
        scanAll sc0.content = it.val :: scanAll sc2.content) ∧
    (∀ i, i < scs.length → (∃ it ∈ (initLoop s scs base).1, it.i = base + i) ∨
      ((initLoop s scs base).2[i]? = scs[i]? ∧
        ∀ sc ∈ scs[i]?, scanAll sc.content = [])) ∧
    ((initLoop s scs base).1.map (fun it => it.val) ++
        ((initLoop s scs base).2.map fun sc => scanAll sc.content).flatten).Perm
      ((scs.map fun sc => scanAll sc.content).flatten) := by
  intro scs
  induction scs with
  | nil =>
    intro base _
    exact ⟨rfl, by simp [initLoop], by simp [initLoop], by simp, by simp [initLoop]⟩
  | cons sc rest ih =>
    intro base hff
    have hscte : sc.tailErr = false := hff sc (List.mem_cons_self sc rest)
    have hrest : ∀ x ∈ rest, x.tailErr = false := fun x hx =>
      hff x (List.mem_cons_of_mem sc hx)
    obtain ⟨ihlen, ihte, ihitems, ihcov, ihperm⟩ := ih (base + 1) hrest
    have hbounds := (initLoop_origin_bounds s rest (base + 1)).1
    simp only [initLoop]
    cases hnext : scannerNext sc with
    | error e =>
      rw [scanner_eta_false hscte] at hnext
      exact absurd hnext scannerNext_false_not_error
    | ok o =>
      cases o with
      | none =>
        have hcnil : sc.content = [] := by
          rw [scanner_eta_false hscte] at hnext
          exact scannerNext_false_none.mp hnext
        dsimp only
        refine ⟨?_, ?_, ?_, ?_, ?_⟩
        · simp [ihlen]
        · intro x hx
          rcases List.mem_cons.mp hx with rfl | hx2
          · exact hscte
          · exact ihte x hx2
        · intro it hit
          obtain ⟨hmk, hbase, sc0, sc2, hg0, hg2, hscan⟩ := ihitems it hit
          have hk : it.i - base = (it.i - (base + 1)) + 1 := by omega
          refine ⟨hmk, by omega, sc0, sc2, ?_, ?_, hscan⟩
          · rw [hk, List.getElem?_cons_succ]
            exact hg0
          · rw [hk, List.getElem?_cons_succ]
            exact hg2
        · intro i hi
          cases i with
          | zero =>
            refine Or.inr ⟨by simp, ?_⟩
            intro x hx
            simp only [List.getElem?_cons_zero] at hx
            have hxsc : x = sc := (Option.some.inj (Option.mem_def.mp hx)).symm
            rw [hxsc, hcnil]
            exact scanAll_nil
          | succ j =>
            simp only [List.length_cons] at hi
            rcases ihcov j (by omega) with ⟨it, hit, hiti⟩ | ⟨heq, hemp⟩
            · exact Or.inl ⟨it, hit, by omega⟩
            · refine Or.inr ⟨?_, ?_⟩
              · rw [List.getElem?_cons_succ, List.getElem?_cons_succ]
                exact heq
              · rw [List.getElem?_cons_succ]
                exact hemp
        · refine List.perm_iff_count.mpr fun a => ?_
          have hc := ihperm.count_eq a
          simp only [List.map_cons, List.flatten_cons, List.count_append, hcnil,
            scanAll_nil, List.count_nil] at hc ⊢
          omega
      | some q =>
        obtain ⟨recd, sc2⟩ := q
        have hsc2te : sc2.tailErr = false :=
          (scannerNext_some_scan hnext).2.2.trans hscte
        have hscan0 : scanAll sc.content = recd :: scanAll sc2.content :=
          (scannerNext_some_scan hnext).1
        dsimp only
        refine ⟨?_, ?_, ?_, ?_, ?_⟩
        · simp [ihlen]
        · intro x hx
          rcases List.mem_cons.mp hx with rfl | hx2
          · exact hsc2te
          · exact ihte x hx2
        · intro it hit
          rcases List.mem_cons.mp hit with rfl | hit2
          · refine ⟨?_, ?_, sc, sc2, ?_, ?_, ?_⟩
            · rw [mkHeapItem_val, mkHeapItem_i]
            · rw [mkHeapItem_i]
            · rw [mkHeapItem_i, Nat.sub_self, List.getElem?_cons_zero]
            · rw [mkHeapItem_i, Nat.sub_self, List.getElem?_cons_zero]
            · rw [mkHeapItem_val]
              exact hscan0
          · obtain ⟨hmk, hbase, sc0, sc3, hg0, hg2, hscan⟩ := ihitems it hit2
            have hk : it.i - base = (it.i - (base + 1)) + 1 := by omega
            refine ⟨hmk, by omega, sc0, sc3, ?_, ?_, hscan⟩
            · rw [hk, List.getElem?_cons_succ]
              exact hg0
            · rw [hk, List.getElem?_cons_succ]
              exact hg2
        · intro i hi
          cases i with
          | zero =>
            refine Or.inl ⟨mkHeapItem s recd base, List.mem_cons_self _ _, ?_⟩
            rw [mkHeapItem_i]
            omega
          | succ j =>
            simp only [List.length_cons] at hi
            rcases ihcov j (by omega) with ⟨it, hit, hiti⟩ | ⟨heq, hemp⟩
            · exact Or.inl ⟨it, List.mem_cons_of_mem _ hit, by omega⟩
            · refine Or.inr ⟨?_, ?_⟩
              · rw [List.getElem?_cons_succ, List.getElem?_cons_succ]
                exact heq
              · rw [List.getElem?_cons_succ]
                exact hemp
        · refine List.perm_iff_count.mpr fun a => ?_
          have hc := ihperm.count_eq a
          simp only [List.map_cons, List.flatten_cons, List.count_append, hscan0,
            mkHeapItem_val, List.count_cons] at hc ⊢
          omega

theorem flatten_eq_nil_of_cov {l : List Scanner}
    (h : ∀ i, i < l.length → ∀ sc ∈ l[i]?, scanAll sc.content = []) :
    (l.map fun sc => scanAll sc.content).flatten = [] := by
  rw [List.flatten_eq_nil_iff]
  intro x hx
  obtain ⟨sc, hsc, rfl⟩ := List.mem_map.mp hx
  obtain ⟨i, hi, hget⟩ := List.mem_iff_getElem.mp hsc
  exact h i hi sc (Option.mem_def.mpr (List.getElem?_eq_some.mpr ⟨hi, hget⟩))

theorem kWayMergeToKafka_perm (s : Nat) (files : List SpillFile)
    (hff : ∀ f ∈ files, f.tailErr = false) :
    (kWayMergeToKafka s files).1.flatten.Perm
      ((files.map fun f => scanAll f.content).flatten) := by
  unfold kWayMergeToKafka
  have hff0 : ∀ sc ∈ files.map fun f => Scanner.mk f.content f.tailErr,
      sc.tailErr = false := by
    intro sc hsc
    obtain ⟨f, hf, rfl⟩ := List.mem_map.mp hsc
    simp [hff f hf]
  obtain ⟨hlen, hte, hitems, hcov, hperm⟩ :=
    initLoop_spec s (files.map fun f => Scanner.mk f.content f.tailErr) 0 hff0
  have hbounds :=
    (initLoop_origin_bounds s (files.map fun f => Scanner.mk f.content f.tailErr) 0).1
  set p := initLoop s (files.map fun f => Scanner.mk f.content f.tailErr) 0 with hp
  set st0 : MergeState := ⟨p.2, p.1, [], [], 0⟩ with hst0
  have hmc0 : MComplete st0 := by
    refine ⟨hte, ?_, ?_⟩
    · intro it hit
      have hb := hbounds it hit
      show it.i < p.2.length
      rw [hlen]
      simp only [List.length_map] at hb ⊢
      omega
    · intro i hi
      have hi2 : i < (files.map fun f => Scanner.mk f.content f.tailErr).length := by
        show _ < _
        rw [← hlen]
        exact hi
      rcases hcov i hi2 with ⟨it, hit, hiti⟩ | ⟨heq, hemp⟩
      · exact Or.inl ⟨it, hit, by omega⟩
      · refine Or.inr ?_
        intro sc hsc
        show scanAll sc.content = []
        refine hemp sc ?_
        rw [← heq]
        exact hsc
  have hP := mergeLoopFuel_invariant (s := s)
      (fun st => MComplete st ∧ (totalRecords st).Perm (totalRecords st0))
      (fun st st' hpr hstep => ⟨mergeStep_MComplete hpr.1 hstep,
        (mergeStep_total_perm hstep).trans hpr.2⟩)
      (mergeMeasure st0 + 1) st0 ⟨hmc0, List.Perm.refl _⟩
  set stF := mergeLoopFuel s (mergeMeasure st0 + 1) st0 with hstF
  have hterm : mergeStep s stF = none :=
    mergeLoopFuel_terminal _ _ (by omega)
  have hheapF : stF.heap = [] := mergeStep_eq_none.mp hterm
  have hscansF : ((stF.scanners.map fun sc => scanAll sc.content).flatten) = [] := by
    apply flatten_eq_nil_of_cov
    intro i hi sc hsc
    rcases hP.1.2.2 i hi with ⟨it, hit, _⟩ | hemp
    · rw [hheapF] at hit
      simp at hit
    · exact hemp sc hsc
  rw [mergeFinish_flatten]
  have htotF : totalRecords stF = emitted stF := by
    unfold totalRecords pendingRecords
    rw [hheapF, hscansF]
    simp
  have hmain : (emitted stF).Perm (totalRecords st0) := htotF ▸ hP.2
  have htot0 : totalRecords st0 =
      p.1.map (fun it => it.val) ++ (p.2.map fun sc => scanAll sc.content).flatten := by
    unfold totalRecords emitted pendingRecords
    rw [hst0]
    simp
  refine hmain.trans ?_
  rw [htot0]
  refine hperm.trans ?_
  rw [List.map_map]
  exact List.Perm.refl _

/-! ### Chunk-phase bookkeeping (towards C1 and C2) -/

theorem ingestChunk_spec (s : Nat) : ∀ (b : Nat) (input : List ReadResult),
    (∀ r ∈ (ingestChunk s b input).1,
      r = mkRecordWithKey s r.data ∧ ReadResult.val r.data ∈ input) ∧
    (∀ x ∈ (ingestChunk s b input).2.1, x ∈ input) ∧
    (ingestChunk s b input).1.length ≤ b := by
  intro b
  induction b with
  | zero =>
    intro input
    exact ⟨by simp [ingestChunk], by simp [ingestChunk], by simp [ingestChunk]⟩
  | succ b2 ih =>
    intro input
    cases input with
    | nil => exact ⟨by simp [ingestChunk], by simp [ingestChunk], by simp [ingestChunk]⟩
    | cons r rest =>
      cases r with
      | timeout =>
        refine ⟨by simp [ingestChunk], ?_, by simp [ingestChunk]⟩
        intro x hx
        simp only [ingestChunk] at hx
        exact List.mem_cons_of_mem _ hx
      | fatal =>
        refine ⟨by simp [ingestChunk], ?_, by simp [ingestChunk]⟩
        intro x hx
        simp only [ingestChunk] at hx
        exact List.mem_cons_of_mem _ hx
      | val v =>
        obtain ⟨ih1, ih2, ih3⟩ := ih rest
        refine ⟨?_, ?_, ?_⟩
        · intro r hr
          simp only [ingestChunk] at hr
          rcases List.mem_cons.mp hr with rfl | hr2
          · rw [mkRecordWithKey_data]
            exact ⟨rfl, List.mem_cons_self _ _⟩
          · obtain ⟨hmk, hmem⟩ := ih1 r hr2
            exact ⟨hmk, List.mem_cons_of_mem _ hmem⟩
        · intro x hx
          simp only [ingestChunk] at hx
          exact List.mem_cons_of_mem _ (ih2 x hx)
        · simp only [ingestChunk, List.length_cons]
          omega

theorem chunkPhaseAux_ok (s cs : Nat) : ∀ (fuel : Nat) (input : List ReadResult)
    (chunks : List (List recordWithKey)) (ing : List R) (effs : List Effect),
    chunkPhaseAux s cs fuel input = (.ok (chunks, ing), effs) →
    (∀ c ∈ chunks, c.Pairwise (recLe s) ∧
      ∀ r ∈ c, r = mkRecordWithKey s r.data ∧ ReadResult.val r.data ∈ input) ∧
    ing.Perm ((chunks.map (List.map fun r => r.data)).flatten) := by
  intro fuel
  induction fuel with
  | zero =>
    intro input chunks ing effs h
    simp only [chunkPhaseAux, Prod.mk.injEq, Except.ok.injEq] at h
    obtain ⟨⟨rfl, rfl⟩, _⟩ := h
    exact ⟨by simp, by simp⟩
  | succ fuel2 ih =>
    intro input chunks ing effs h
    obtain ⟨hspec1, hspec2, _⟩ := ingestChunk_spec s cs input
    simp only [chunkPhaseAux] at h
    by_cases hfat : (ingestChunk s cs input).2.2
    · rw [if_pos hfat] at h
      exact absurd (congrArg Prod.fst h) (by simp)
    · rw [if_neg hfat] at h
      by_cases hemp : (ingestChunk s cs input).1.isEmpty
      · rw [if_pos hemp] at h
        simp only [Prod.mk.injEq, Except.ok.injEq] at h
        obtain ⟨⟨rfl, rfl⟩, _⟩ := h
        exact ⟨by simp, by simp⟩
      · rw [if_neg hemp] at h
        by_cases hlt : (ingestChunk s cs input).1.length < cs
        · rw [if_pos hlt] at h
          simp only [Prod.mk.injEq, Except.ok.injEq] at h
          obtain ⟨⟨rfl, rfl⟩, _⟩ := h
          refine ⟨?_, ?_⟩
          · intro c hc
            rw [List.mem_singleton.mp hc]
            refine ⟨sortRecords_sorted s _, ?_⟩
            intro r hr
            have hrmem : r ∈ (ingestChunk s cs input).1 :=
              (sortRecords_perm s _).subset hr
            exact hspec1 r hrmem
          · simp only [List.map_cons, List.map_nil, List.flatten_cons,
              List.flatten_nil, List.append_nil]
            exact ((sortRecords_perm s _).map fun r => r.data).symm
        · rw [if_neg hlt] at h
          cases hrec : chunkPhaseAux s cs fuel2 (ingestChunk s cs input).2.1 with
          | mk res2 effs2 =>
            rw [hrec] at h
            cases res2 with
            | error e =>
              exact absurd (congrArg Prod.fst h) (by simp)
            | ok pr =>
              obtain ⟨chunks2, ing2⟩ := pr
              simp only [Prod.mk.injEq, Except.ok.injEq] at h
              obtain ⟨⟨rfl, rfl⟩, _⟩ := h
              obtain ⟨ih1, ih2⟩ := ih _ _ _ _ hrec
              refine ⟨?_, ?_⟩
              · intro c hc
                rcases List.mem_cons.mp hc with rfl | hc2
                · refine ⟨sortRecords_sorted s _, ?_⟩
                  intro r hr
                  have hrmem : r ∈ (ingestChunk s cs input).1 :=
                    (sortRecords_perm s _).subset hr
                  exact hspec1 r hrmem
                · obtain ⟨hpw, hmem⟩ := ih1 c hc2
                  refine ⟨hpw, ?_⟩
                  intro r hr
                  obtain ⟨hmk, hmemr⟩ := hmem r hr
                  exact ⟨hmk, hspec2 _ hmemr⟩
              · simp only [List.map_cons, List.flatten_cons]
                exact ((((sortRecords_perm s _).map fun r => r.data).symm).append ih2).symm.symm

theorem ExternalSort_ok_cases {sys alloc s : Nat} {tempDir : List Nat}
    {input : List ReadResult} {pub : List (List R)} {cnt : Nat} {ing : List R}
    {effs : List Effect}
    (h : ExternalSort sys alloc s tempDir input = (.ok (pub, cnt, ing), effs)) :
    ∃ chunks effs2,
      chunkPhase s (calculateAdaptiveChunkSize sys alloc).toNat input =
        (.ok (chunks, ing), effs2) ∧
      ((chunks = [] ∧ pub = [] ∧ cnt = 0) ∨
        (chunks ≠ [] ∧ (pub, cnt) =
          kWayMergeToKafka s (chunks.mapIdx fun n c =>
            SpillFile.mk tempDir n (writeChunk c) false))) := by
  unfold ExternalSort at h
  by_cases hval : s ≠ 0 ∧ s ≠ 1 ∧ s ≠ 3
  · rw [if_pos hval] at h
    exact absurd (congrArg Prod.fst h) (by simp)
  · rw [if_neg hval] at h
    dsimp only at h
    cases hcp : chunkPhase s (calculateAdaptiveChunkSize sys alloc).toNat input with
    | mk res effs2 =>
      rw [hcp] at h
      cases res with
      | error e =>
        exact absurd (congrArg Prod.fst h) (by simp)
      | ok pr =>
        obtain ⟨chunks, ing2⟩ := pr
        dsimp only at h
        by_cases hemp : chunks.isEmpty
        · rw [if_pos hemp] at h
          simp only [Prod.mk.injEq, Except.ok.injEq] at h
          obtain ⟨⟨rfl, rfl, rfl⟩, _⟩ := h
          exact ⟨chunks, effs2, rfl, Or.inl ⟨List.isEmpty_iff.mp hemp, rfl, rfl⟩⟩
        · rw [if_neg hemp] at h
          simp only [Prod.mk.injEq, Except.ok.injEq] at h
          obtain ⟨⟨rfl, rfl, rfl⟩, _⟩ := h
          refine ⟨chunks, effs2, rfl, Or.inr ⟨fun hc => hemp (by simp [hc]), rfl⟩⟩

theorem mapIdx_spill_tailErr (chunks : List (List recordWithKey)) (tempDir : List Nat) :
    ∀ f ∈ chunks.mapIdx fun n c => SpillFile.mk tempDir n (writeChunk c) false,
      f.tailErr = false := by
  intro f hf
  rw [List.mapIdx_eq_enum_map] at hf
  obtain ⟨p, _, rfl⟩ := List.mem_map.mp hf
  rfl

theorem mapIdx_spill_contents {β : Type} (chunks : List (List recordWithKey))
    (tempDir : List Nat) (F : List Nat → β) :
    ((chunks.mapIdx fun n c => SpillFile.mk tempDir n (writeChunk c) false).map
        fun f => F f.content) = chunks.map fun c => F (writeChunk c) := by
  rw [List.mapIdx_eq_enum_map, List.map_map]
  have h2 : ((fun f : SpillFile => F f.content) ∘
      Function.uncurry fun n c => SpillFile.mk tempDir n (writeChunk c) false) =
      (fun c => F (writeChunk c)) ∘ Prod.snd := by
    funext p
    rfl
  rw [h2, ← List.map_map, List.enum_map_snd]

/-- C2: multiset preservation. For every run of `ExternalSort` over a clean
input trace (payloads carry no newline byte, as the spec's data model demands)
that returns success, the sequence of records published to the output writer
is a permutation of the record payloads read from the input reader during the
run — nothing is lost, duplicated, or synthesized — and in particular the
number of published records equals the number of ingested records. -/
theorem ExternalSort_multiset_preservation
    (sys alloc s : Nat) (tempDir : List Nat) (input : List ReadResult)
    (pub : List (List R)) (cnt : Nat) (ing : List R) (effs : List Effect)
    (hclean : ∀ r ∈ input, cleanRead r = true)
    (h : ExternalSort sys alloc s tempDir input = (.ok (pub, cnt, ing), effs)) :
    pub.flatten.Perm ing ∧ pub.flatten.length = ing.length := by
  obtain ⟨chunks, effs2, hcp, hcase⟩ := ExternalSort_ok_cases h
  obtain ⟨hchunks, hperm⟩ := chunkPhaseAux_ok s _ _ _ _ _ _ hcp
  have hchunkclean : ∀ c ∈ chunks, ∀ r ∈ c, 10 ∉ r.data := by
    intro c hc r hr
    obtain ⟨_, hmem⟩ := (hchunks c hc).2 r hr
    have := hclean _ hmem
    simp [cleanRead] at this
    exact this
  rcases hcase with ⟨rfl, rfl, rfl⟩ | ⟨hne, hpc⟩
  · have hing : ing = [] := by
      have := hperm
      simp only [List.map_nil, List.flatten_nil] at this
      exact (List.Perm.nil_eq this.symm).symm
    rw [hing]
    exact ⟨List.Perm.refl _, rfl⟩
  · have hpub : pub = (kWayMergeToKafka s (chunks.mapIdx fun n c =>
        SpillFile.mk tempDir n (writeChunk c) false)).1 := congrArg Prod.fst hpc
    have hmergeperm := kWayMergeToKafka_perm s
      (chunks.mapIdx fun n c => SpillFile.mk tempDir n (writeChunk c) false)
      (mapIdx_spill_tailErr chunks tempDir)
    rw [← hpub] at hmergeperm
    have hcontents := mapIdx_spill_contents chunks tempDir (fun c => scanAll c)
    rw [hcontents] at hmergeperm
    have hrt : (chunks.map fun c => scanAll (writeChunk c)) =
        chunks.map fun c => c.map fun r => r.data :=
      List.map_congr_left fun c hc => scanAll_writeChunk (hchunkclean c hc)
    rw [hrt] at hmergeperm
    have hfinal : pub.flatten.Perm ing := hmergeperm.trans hperm.symm
    exact ⟨hfinal, hfinal.length_eq⟩

theorem ExternalSort_multiset_preservation_witness :
    ([[[51], [53]]] : List (List R)).flatten.Perm [[53], [51]] ∧
      ([[[51], [53]]] : List (List R)).flatten.length = ([[53], [51]] : List R).length :=
  ExternalSort_multiset_preservation 0 0 0 [116]
    [ReadResult.val [53], ReadResult.val [51], ReadResult.timeout]
    [[[51], [53]]] 2 [[53], [51]]
    [Effect.mkdir, Effect.read, Effect.read, Effect.read, Effect.spillWrite,
      Effect.spillRead, Effect.publish]
    (by decide) (by rfl)

/-! ### The sortedness invariant of the merge loop (towards C1) -/

theorem mkHeapItem_eta (s : Nat) (recd : R) (i : Nat) :
    mkHeapItem s recd i =
      mkHeapItem s (mkHeapItem s recd i).val (mkHeapItem s recd i).i := by
  rw [mkHeapItem_val, mkHeapItem_i]

theorem keyLe_of_not_minHeapLess {s : Nat} {x y : heapItem}
    (hx : x = mkHeapItem s x.val x.i) (hy : y = mkHeapItem s y.val y.i)
    (h : minHeapLess y x = false) : keyLe s x.val y.val := by
  unfold keyLe
  rw [keyLeB_eq_not_minHeapLess s x.val y.val x.i y.i, ← hx, ← hy, h]
  rfl

theorem chain_keyLe_cons_of_cons {s : Nat} {a b : R} {l : List R}
    (h : List.Chain' (keyLe s) (a :: b :: l)) : List.Chain' (keyLe s) (a :: l) := by
  obtain ⟨hab, hbl⟩ := List.chain'_cons.mp h
  obtain ⟨hhead, hl⟩ := List.chain'_cons'.mp hbl
  exact List.chain'_cons'.mpr ⟨fun c hc => keyLe_trans hab (hhead c hc), hl⟩

theorem mergeStep_MInv {s : Nat} {st st' : MergeState}
    (hinv : MInv s st) (h : mergeStep s st = some st') : MInv s st' := by
  obtain ⟨hte, hmk, hfile, hchain, hlast⟩ := hinv
  obtain ⟨m, rest, hpop, hemit, _, hcase⟩ := mergeStep_cases h
  have hemit2 : emitted st' = emitted st ++ [m.val] := hemit
  have homog : ∀ it ∈ st.heap, it.useInt = decide (s = 0) := fun it hit => by
    rw [hmk it hit]
    exact mkHeapItem_useInt s it.val it.i
  have hperm := popMin_perm hpop
  have hmmem : m ∈ st.heap := hperm.symm.subset (List.mem_cons_self m rest)
  have hrestmem : ∀ it ∈ rest, it ∈ st.heap := fun it hit =>
    hperm.symm.subset (List.mem_cons_of_mem m hit)
  have hmin := popMin_min (b := decide (s = 0)) homog hpop
  have hminle : ∀ it ∈ rest, keyLe s m.val it.val := fun it hit =>
    keyLe_of_not_minHeapLess (hmk m hmmem) (hmk it (hrestmem it hit)) (hmin it hit)
  have hchainE : List.Chain' (keyLe s) (emitted st') := by
    rw [hemit2]
    refine List.chain'_append.mpr ⟨hchain, List.chain'_singleton _, ?_⟩
    intro x hx y hy
    have hym : m.val = y := Option.some.inj (Option.mem_def.mp hy)
    rw [← hym]
    exact hlast m hmmem x hx
  have hlastE : (emitted st').getLast? = some m.val := by
    rw [hemit2]
    exact List.getLast?_concat _
  rcases hcase with ⟨sc, recd, sc2, hscan, hnext, hscs, hheap⟩ | ⟨hscs, hheap, _⟩
  · obtain ⟨hscanscan, _, hscte2⟩ := scannerNext_some_scan hnext
    have hmi : m.i < st.scanners.length := (List.getElem?_eq_some.mp hscan).1
    have hmfile := hfile m hmmem
    obtain ⟨scm, hscm, hchainm⟩ := hmfile
    have hscmeq : scm = sc := Option.some.inj (hscm.symm.trans hscan)
    rw [hscmeq] at hchainm
    have hchainm2 : List.Chain' (keyLe s) (m.val :: recd :: scanAll sc2.content) := by
      rw [← hscanscan]
      exact hchainm
    refine ⟨?_, ?_, ?_, hchainE, ?_⟩
    · intro x hx
      rw [hscs] at hx
      rcases List.mem_or_eq_of_mem_set hx with hx2 | rfl
      · exact hte x hx2
      · exact hscte2.trans (hte sc (mem_of_getElem?_scanner hscan))
    · intro it hit
      rw [hheap] at hit
      rcases List.mem_append.mp hit with hit2 | hit2
      · exact hmk it (hrestmem it hit2)
      · rw [List.mem_singleton.mp hit2]
        exact mkHeapItem_eta s recd m.i
    · intro it hit
      rw [hheap] at hit
      rcases List.mem_append.mp hit with hit2 | hit2
      · obtain ⟨sc3, hsc3, hchain3⟩ := hfile it (hrestmem it hit2)
        by_cases hii : it.i = m.i
        · have hsc3sc : sc3 = sc := by
            rw [hii] at hsc3
            exact Option.some.inj (hsc3.symm.trans hscan)
          subst hsc3sc
          refine ⟨sc2, ?_, ?_⟩
          · rw [hscs, hii]
            exact List.getElem?_set_self hmi
          · refine chain_keyLe_cons_of_cons (b := recd) ?_
            rw [← hscanscan]
            exact hchain3
        · refine ⟨sc3, ?_, hchain3⟩
          rw [hscs, List.getElem?_set_ne (fun he => hii he.symm)]
          exact hsc3
      · rw [List.mem_singleton.mp hit2]
        refine ⟨sc2, ?_, ?_⟩
        · rw [hscs, mkHeapItem_i]
          exact List.getElem?_set_self hmi
        · rw [mkHeapItem_val]
          exact (List.chain'_cons.mp hchainm2).2
    · intro it hit e he
      rw [hlastE] at he
      have hme : m.val = e := Option.some.inj (Option.mem_def.mp he)
      rw [← hme]
      rw [hheap] at hit
      rcases List.mem_append.mp hit with hit2 | hit2
      · exact hminle it hit2
      · rw [List.mem_singleton.mp hit2, mkHeapItem_val]
        exact (List.chain'_cons.mp hchainm2).1
  · refine ⟨?_, ?_, ?_, hchainE, ?_⟩
    · intro x hx
      rw [hscs] at hx
      exact hte x hx
    · intro it hit
      rw [hheap] at hit
      exact hmk it (hrestmem it hit)
    · intro it hit
      rw [hheap] at hit
      obtain ⟨sc3, hsc3, hchain3⟩ := hfile it (hrestmem it hit)
      refine ⟨sc3, ?_, hchain3⟩
      rw [hscs]
      exact hsc3
    · intro it hit e he
      rw [hlastE] at he
      have hme : m.val = e := Option.some.inj (Option.mem_def.mp he)
      rw [← hme]
      rw [hheap] at hit
      exact hminle it hit

theorem kWayMergeToKafka_sorted (s : Nat) (files : List SpillFile)
    (hff : ∀ f ∈ files, f.tailErr = false)
    (hsorted : ∀ f ∈ files, List.Chain' (keyLe s) (scanAll f.content)) :
    List.Chain' (keyLe s) (kWayMergeToKafka s files).1.flatten := by
  unfold kWayMergeToKafka
  have hff0 : ∀ sc ∈ files.map fun f => Scanner.mk f.content f.tailErr,
      sc.tailErr = false := by
    intro sc hsc
    obtain ⟨f, hf, rfl⟩ := List.mem_map.mp hsc
    simp [hff f hf]
  have hs0 : ∀ sc ∈ files.map fun f => Scanner.mk f.content f.tailErr,
      List.Chain' (keyLe s) (scanAll sc.content) := by
    intro sc hsc
    obtain ⟨f, hf, rfl⟩ := List.mem_map.mp hsc
    exact hsorted f hf
  obtain ⟨hlen, hte, hitems, hcov, hperm⟩ :=
    initLoop_spec s (files.map fun f => Scanner.mk f.content f.tailErr) 0 hff0
  set p := initLoop s (files.map fun f => Scanner.mk f.content f.tailErr) 0 with hp
  set st0 : MergeState := ⟨p.2, p.1, [], [], 0⟩ with hst0
  have hinv0 : MInv s st0 := by
    refine ⟨hte, ?_, ?_, ?_, ?_⟩
    · intro it hit
      exact (hitems it hit).1
    · intro it hit
      obtain ⟨_, _, sc0, sc2, hg0, hg2, hscan⟩ := hitems it hit
      rw [Nat.sub_zero] at hg0 hg2
      refine ⟨sc2, hg2, ?_⟩
      rw [← hscan]
      exact hs0 sc0 (mem_of_getElem?_scanner hg0)
    · show List.Chain' (keyLe s) ([].flatten ++ [])
      simp
    · intro it _ e he
      show keyLe s e it.val
      have : (emitted st0).getLast? = none := by
        unfold emitted
        rw [hst0]
        simp
      rw [this] at he
      exact absurd (Option.mem_def.mp he) (by simp)
  have hP := mergeLoopFuel_invariant (s := s) (MInv s)
      (fun st st' hpr hstep => mergeStep_MInv hpr hstep)
      (mergeMeasure st0 + 1) st0 hinv0
  rw [mergeFinish_flatten]
  exact hP.2.2.2.1

/-- C1: sortedness of the published stream. For every run of `ExternalSort`
with a valid selector over a clean input trace that returns success, the
sequence of records published to the output writer is globally non-decreasing
under the active comparator: signed 64-bit integer order on the extracted id
key for selector 0, unsigned byte-wise lexicographic order on the extracted
string key for selectors 1 and 3; in particular an empty string key sorts
before any non-empty key (second conjunct). -/
theorem ExternalSort_output_sorted
    (sys alloc s : Nat) (tempDir : List Nat) (input : List ReadResult)
    (pub : List (List R)) (cnt : Nat) (ing : List R) (effs : List Effect)
    (_hvalid : s = 0 ∨ s = 1 ∨ s = 3)
    (hclean : ∀ r ∈ input, cleanRead r = true)
    (h : ExternalSort sys alloc s tempDir input = (.ok (pub, cnt, ing), effs)) :
    List.Chain' (keyLe s) pub.flatten ∧
      ∀ c : Nat, ∀ cs : List Nat, lexLt [] (c :: cs) = true := by
  refine ⟨?_, fun c cs => lexLt_nil_cons c cs⟩
  obtain ⟨chunks, effs2, hcp, hcase⟩ := ExternalSort_ok_cases h
  obtain ⟨hchunks, _⟩ := chunkPhaseAux_ok s _ _ _ _ _ _ hcp
  have hchunkclean : ∀ c ∈ chunks, ∀ r ∈ c, 10 ∉ r.data := by
    intro c hc r hr
    obtain ⟨_, hmem⟩ := (hchunks c hc).2 r hr
    have := hclean _ hmem
    simp [cleanRead] at this
    exact this
  rcases hcase with ⟨hnil, rfl, rfl⟩ | ⟨hne, hpc⟩
  · simp
  · have hpub : pub = (kWayMergeToKafka s (chunks.mapIdx fun n c =>
        SpillFile.mk tempDir n (writeChunk c) false)).1 := congrArg Prod.fst hpc
    rw [hpub]
    apply kWayMergeToKafka_sorted s _ (mapIdx_spill_tailErr chunks tempDir)
    intro f hf
    have hmem : scanAll f.content ∈
        (chunks.mapIdx fun n c => SpillFile.mk tempDir n (writeChunk c) false).map
          fun f => scanAll f.content := List.mem_map_of_mem _ hf
    rw [mapIdx_spill_contents chunks tempDir scanAll] at hmem
    obtain ⟨c, hc, heq⟩ := List.mem_map.mp hmem
    rw [← heq, scanAll_writeChunk (hchunkclean c hc)]
    exact chain_keyLe_of_sorted (fun r hr => ((hchunks c hc).2 r hr).1) (hchunks c hc).1

theorem ExternalSort_output_sorted_witness :
    List.Chain' (keyLe 0) ([[[51], [53]]] : List (List R)).flatten ∧
      ∀ c : Nat, ∀ cs : List Nat, lexLt [] (c :: cs) = true :=
  ExternalSort_output_sorted 0 0 0 [116]
    [ReadResult.val [53], ReadResult.val [51], ReadResult.timeout]
    [[[51], [53]]] 2 [[53], [51]]
    [Effect.mkdir, Effect.read, Effect.read, Effect.read, Effect.spillWrite,
      Effect.spillRead, Effect.publish]
    (by decide) (by decide) (by rfl)
